import Mathlib

/-!
Shallow embedding of the Koi lexical pipeline (src/koi/lexer.py) and the
token walker (src/koi/parser.py), together with proofs about the claims of
the specification.

Source strings are modelled as `List Char`; token streams are finite lists.
A pass that can raise is modelled by `PRes`: `ok` is a normal run, `err`
models a raised `LexError` (carrying the tokens the generator yielded
before raising, and the error position), and `crash` models any other
Python exception (assertion failure, `IndexError` on an empty source, an
attribute error on a value of the wrong type).  Character classes follow
the ASCII behaviour of the regular expressions in the source.
-/

namespace Koi

/-- Python token value: `None`, a string, or a parsed integer. -/
inductive TokValue where
  | vNone
  | vStr (s : List Char)
  | vInt (n : Nat)
deriving DecidableEq, Repr

/-- The `Token` dataclass of `lexer.py`. -/
structure Token where
  kind : String
  position : Nat × Nat
  value : TokValue
deriving DecidableEq, Repr

/-- Result of running one pass of the pipeline on a finite token stream.
`err`/`crash` carry the tokens yielded before the exception was raised. -/
inductive PRes where
  | ok (out : List Token)
  | err (out : List Token) (pos : Nat × Nat)
  | crash (out : List Token)
deriving DecidableEq, Repr

/-- A generator that yields `t` and then behaves like `r`. -/
def prependTok (t : Token) : PRes → PRes
  | .ok out => .ok (t :: out)
  | .err out p => .err (t :: out) p
  | .crash out => .crash (t :: out)

/-- A generator that yields `ts` and then behaves like `r`. -/
def prependToks (ts : List Token) : PRes → PRes
  | .ok out => .ok (ts ++ out)
  | .err out p => .err (ts ++ out) p
  | .crash out => .crash (ts ++ out)

/-- Run `r`; if it finishes normally continue with `k`. -/
def appendPRes (r : PRes) (k : Unit → PRes) : PRes :=
  match r with
  | .ok out => prependToks out (k ())
  | .err out p => .err out p
  | .crash out => .crash out

/-- Feed the (lazy) output of one pass into the next pass.  If the upstream
pass raises, the downstream pass still consumes and transforms every token
yielded before the exception; a downstream exception raised while doing so
wins over the upstream one, mirroring generator composition in Python. -/
def seqPass (r : PRes) (g : List Token → PRes) : PRes :=
  match r with
  | .ok out => g out
  | .err out p =>
    match g out with
    | .ok out2 => .err out2 p
    | .err out2 p2 => .err out2 p2
    | .crash out2 => .crash out2
  | .crash out =>
    match g out with
    | .ok out2 => .crash out2
    | .err out2 p2 => .err out2 p2
    | .crash out2 => .crash out2

/-- Python whitespace, as stripped by `str.strip` (ASCII subset). -/
def isPySpace (c : Char) : Bool :=
  c = ' ' || c = '\t' || c = '\n' || c = '\r' || c = '\x0b' || c = '\x0c'

/-- Python `str.lstrip()`. -/
def pyLstrip (s : List Char) : List Char := s.dropWhile isPySpace

/-- Python `str.rstrip()`. -/
def pyRstrip (s : List Char) : List Char := (s.reverse.dropWhile isPySpace).reverse

/-- Python `str.strip()`. -/
def pyStrip (s : List Char) : List Char := pyRstrip (pyLstrip s)

/-- Helper for `pySplitlines`: `acc` holds the current line reversed. -/
def splitlinesGo (acc : List Char) : List Char → List (List Char)
  | [] => if acc = [] then [] else [acc.reverse]
  | c :: rest =>
    if c = '\n' then (acc.reverse ++ ['\n']) :: splitlinesGo [] rest
    else splitlinesGo (c :: acc) rest

/-- Python `str.splitlines(keepends=True)` with `'\n'` as the terminator. -/
def pySplitlines (s : List Char) : List (List Char) := splitlinesGo [] s

/-- The `line` tokens of `break_line_pass`, one per physical line. -/
def breakGo (row : Nat) : List (List Char) → List Token
  | [] => []
  | l :: rest => ⟨"line", (row, 0), .vStr l⟩ :: breakGo (row + 1) rest

/-- `break_line_pass` of `lexer.py`.  On the empty source the Python code
evaluates `source[-1]` with `row`/`line` unbound and raises, modelled as
`crash`. -/
def break_line_pass (source : List Char) : PRes :=
  if source = [] then .crash []
  else
    let lines := pySplitlines source
    let eofPos :=
      if source.getLastD '\n' ≠ '\n' then (lines.length - 1, (lines.getLastD []).length)
      else (lines.length, 0)
    .ok (breakGo 0 lines ++ [⟨"eof", eofPos, .vNone⟩])

/-- Python `line.find(chr(34))`: index of the first double quote. -/
def findQuote : List Char → Option Nat
  | [] => none
  | c :: rest => if c = '"' then some 0 else (findQuote rest).map (· + 1)

/-- Start of the capture group of `re.search` for the pattern
"optional non-backslash character, then a captured double quote".
At each start position the engine first tries to consume one
non-backslash character before the quote and only then the empty
alternative, exactly as Python's backtracking does. -/
def searchClose : List Char → Option Nat
  | [] => none
  | [c] => if c = '"' then some 0 else none
  | c₁ :: c₂ :: rest =>
    if c₁ ≠ '\\' ∧ c₂ = '"' then some 1
    else if c₁ = '"' then some 0
    else (searchClose (c₂ :: rest)).map (· + 1)

/-- State of `string_literal_pass`: `none` when no string is open,
otherwise the accumulated text and the recorded string position. -/
abbrev SLState := Option (List Char × (Nat × Nat))

/-- The inner `while line:` loop of `string_literal_pass`, processing the
remaining characters of one line token at `(row, col)`.  Returns the
yielded tokens and the updated accumulator state. -/
def slLine (st : SLState) (row col : Nat) (line : List Char) :
    List Token × SLState :=
  match line with
  | [] => ([], st)
  | c :: cs =>
    match st with
    | none =>
      match findQuote (c :: cs) with
      | none => ([⟨"line", (row, col), .vStr (c :: cs)⟩], none)
      | some offset =>
        let preString := (c :: cs).take offset
        let rest := (c :: cs).drop (offset + 1)
        let col' := col + offset + 1
        let r := slLine (some ([], (row, col'))) row col' rest
        if preString = [] then r
        else (⟨"line", (row, col), .vStr preString⟩ :: r.1, r.2)
    | some (acc, sp) =>
      match searchClose (c :: cs) with
      | none => ([], some (acc ++ (c :: cs), sp))
      | some offset =>
        let stringTail := (c :: cs).take offset
        let rest := (c :: cs).drop (offset + 1)
        let col' := col + offset + 1
        let r := slLine none row col' rest
        (⟨"string", sp, .vStr (acc ++ stringTail)⟩ :: r.1, r.2)
termination_by line.length
decreasing_by
  all_goals simp only [List.length_drop, List.length_cons]
  all_goals omega

/-- The token loop of `string_literal_pass`.  A non-`line`, non-`eof`
token fails the `assert` (modelled as `crash`); a `line` token with a
non-string value crashes on `line.find`. -/
def slGo (st : SLState) : List Token → PRes
  | [] => .ok []
  | t :: rest =>
    if t.kind = "eof" then
      match st with
      | some (acc, _) => if acc ≠ [] then .err [] t.position else .ok [t]
      | none => .ok [t]
    else if t.kind = "line" then
      match t.value with
      | .vStr line =>
        let r := slLine st t.position.1 t.position.2 line
        prependToks r.1 (slGo r.2 rest)
      | _ => .crash []
    else .crash []

/-- `string_literal_pass` of `lexer.py`. -/
def string_literal_pass (ts : List Token) : PRes := slGo none ts

/-- Python `value.split(";")[0]`. -/
def splitSemi (s : List Char) : List Char := s.takeWhile (fun c => c ≠ ';')

/-- `comment_pass` of `lexer.py`: truncate each line at the first `;`,
right-strip it, and drop it when nothing but whitespace remains. -/
def comment_pass : List Token → PRes
  | [] => .ok []
  | t :: rest =>
    if t.kind = "line" then
      match t.value with
      | .vStr v =>
        let pureLine := pyRstrip (splitSemi v)
        if pyStrip pureLine = [] then comment_pass rest
        else prependTok ⟨t.kind, t.position, .vStr pureLine⟩ (comment_pass rest)
      | _ => .crash []
    else prependTok t (comment_pass rest)

/-- The `while levels[-1] != token_level` loop of `indent_level_pass`:
yield one `close_level` per popped entry.  The stack is represented with
its top at the head.  The call sites guard `token_level ∈ levels`, so the
`[]` case is unreachable there. -/
def popClose (tl : Nat) (p : Nat × Nat) : List Nat → List Token × List Nat
  | [] => ([], [])
  | l :: ls =>
    if l = tl then ([], l :: ls)
    else
      let r := popClose tl p ls
      (⟨"close_level", p, .vNone⟩ :: r.1, r.2)

/-- The token loop of `indent_level_pass`.  `levels` is the indentation
stack with its top at the head; `first` mirrors `is_first`. -/
def indentGo (levels : List Nat) (first : Bool) : List Token → PRes
  | [] => .ok []
  | t :: rest =>
    if t.kind = "eof" then
      .ok ((levels.filter (fun l => l ≠ 0)).map
            (fun _ => ⟨"close_level", t.position, .vNone⟩) ++ [t])
    else if t.kind = "line" then
      match t.value with
      | .vStr v =>
        let rest_v := pyLstrip v
        let w := v.length - rest_v.length
        if first ∧ w ≠ 0 then .err [] t.position
        else
          match levels with
          | [] => .crash []
          | top :: _ =>
            let lp := (t.position.1, t.position.2 + w)
            if w > top then
              prependTok ⟨"open_level", lp, .vNone⟩
                (prependTok ⟨"line", lp, .vStr rest_v⟩
                  (indentGo (w :: levels) false rest))
            else if w < top then
              if w ∉ levels then .err [] lp
              else
                let r := popClose w lp levels
                prependToks r.1
                  (prependTok ⟨"line", lp, .vStr rest_v⟩
                    (indentGo r.2 false rest))
            else prependTok ⟨"line", lp, .vStr rest_v⟩ (indentGo levels false rest)
      | _ => .crash []
    else prependTok t (indentGo levels first rest)

/-- `indent_level_pass` of `lexer.py`. -/
def indent_level_pass (ts : List Token) : PRes := indentGo [0] true ts

/-- Does the list `l` start with the pattern `p`?  (Python `startswith`.) -/
def swList : List Char → List Char → Bool
  | [], _ => true
  | _ :: _, [] => false
  | p :: ps, c :: cs => p = c && swList ps cs

/-- Letter or underscore (start of the identifier regex). -/
def isIdentStart (c : Char) : Bool :=
  ('a' ≤ c && c ≤ 'z') || ('A' ≤ c && c ≤ 'Z') || c = '_'

/-- ASCII word character, the regex class backslash-w. -/
def isWordChar (c : Char) : Bool := isIdentStart c || ('0' ≤ c && c ≤ '9')

/-- ASCII decimal digit. -/
def isDigitChar (c : Char) : Bool := '0' ≤ c && c ≤ '9'

/-- ASCII octal digit. -/
def isOctChar (c : Char) : Bool := '0' ≤ c && c ≤ '7'

/-- ASCII hexadecimal digit. -/
def isHexChar (c : Char) : Bool :=
  isDigitChar c || ('a' ≤ c && c ≤ 'f') || ('A' ≤ c && c ≤ 'F')

/-- Binary digit. -/
def isBinChar (c : Char) : Bool := c = '0' || c = '1'

/-- The keyword table `token_table1`, tried in tuple order. -/
def tryTable1 (line : List Char) : Option (String × Nat) :=
  if swList "return".toList line then some ("return", 6)
  else if swList "if".toList line then some ("if", 2)
  else none

/-- The two-character operator table `token_table2`, in insertion order. -/
def tryTable2 (line : List Char) : Option (String × Nat) :=
  if swList "==".toList line then some ("equal", 2)
  else if swList "->".toList line then some ("arrow", 2)
  else none

/-- The single-character table `token_table3` (`line[0] in table`). -/
def tryTable3 : List Char → Option (String × Nat)
  | [] => none
  | c :: _ =>
    if c = '=' then some ("assign", 1)
    else if c = '+' then some ("plus", 1)
    else if c = ',' then some ("comma", 1)
    else none

/-- `re.match` for the identifier regex: letter/underscore then word
characters, greedy. -/
def matchIdent : List Char → Option (List Char)
  | [] => none
  | c :: cs => if isIdentStart c then some (c :: cs.takeWhile isWordChar) else none

/-- First alternative of the integer regex: nonzero digit then digits. -/
def matchDec : List Char → Option (List Char)
  | [] => none
  | c :: cs =>
    if '1' ≤ c && c ≤ '9' then some (c :: cs.takeWhile isDigitChar) else none

/-- Second alternative of the integer regex: a lone `0`. -/
def matchZero : List Char → Option (List Char)
  | [] => none
  | c :: _ => if c = '0' then some ['0'] else none

/-- A radix alternative of the integer regex: `0`, one of the two marker
characters, then at least one digit of the radix, greedy. -/
def matchRadix (m₁ m₂ : Char) (isD : Char → Bool) : List Char → Option (List Char)
  | c₀ :: c :: rest =>
    if c₀ = '0' && (c = m₁ || c = m₂) then
      match rest.takeWhile isD with
      | [] => none
      | d :: ds => some ('0' :: c :: d :: ds)
    else none
  | _ => none

/-- The full integer-literal regex of `split_word_pass`, with Python's
ordered alternation: the first alternative that matches wins. -/
def matchInt (line : List Char) : Option (List Char) :=
  match matchDec line with
  | some m => some m
  | none =>
    match matchZero line with
    | some m => some m
    | none =>
      match matchRadix 'o' 'O' isOctChar line with
      | some m => some m
      | none =>
        match matchRadix 'x' 'X' isHexChar line with
        | some m => some m
        | none => matchRadix 'b' 'B' isBinChar line

/-- Numeric value of an ASCII digit in any radix up to 16. -/
def digitVal (c : Char) : Nat :=
  if c ≤ '9' then c.toNat - '0'.toNat
  else if c ≤ 'Z' then c.toNat - 'A'.toNat + 10
  else c.toNat - 'a'.toNat + 10

/-- Fold a digit string in the given base. -/
def foldDigits (base : Nat) (ds : List Char) : Nat :=
  ds.foldl (fun a c => a * base + digitVal c) 0

/-- Python `int(s, base=0)`: choose the radix from the literal's prefix. -/
def pyIntBase0 (s : List Char) : Nat :=
  match s with
  | c₀ :: c :: rest =>
    if c₀ = '0' then
      if c = 'x' || c = 'X' then foldDigits 16 rest
      else if c = 'o' || c = 'O' then foldDigits 8 rest
      else if c = 'b' || c = 'B' then foldDigits 2 rest
      else foldDigits 10 s
    else foldDigits 10 s
  | _ => foldDigits 10 s

/-- One iteration of the matching cascade of `split_word_pass` at the
current position: keywords, two-character operators, single-character
operators, identifier, integer literal. -/
def splitMatch (row col : Nat) (line : List Char) : Option (Token × Nat) :=
  match tryTable1 line with
  | some (k, n) => some (⟨k, (row, col), .vNone⟩, n)
  | none =>
    match tryTable2 line with
    | some (k, n) => some (⟨k, (row, col), .vNone⟩, n)
    | none =>
      match tryTable3 line with
      | some (k, n) => some (⟨k, (row, col), .vNone⟩, n)
      | none =>
        match matchIdent line with
        | some name => some (⟨"name", (row, col), .vStr name⟩, name.length)
        | none =>
          match matchInt line with
          | some m => some (⟨"int", (row, col), .vInt (pyIntBase0 m)⟩, m.length)
          | none => none

/-- A successful identifier match is nonempty. -/
theorem matchIdent_ne_nil {line m : List Char} (h : matchIdent line = some m) :
    m ≠ [] := by
  unfold matchIdent at h
  split at h
  · exact absurd h (by simp)
  · split at h
    · simp only [Option.some.injEq] at h
      simp [← h]
    · exact absurd h (by simp)

/-- A successful decimal match is nonempty. -/
theorem matchDec_ne_nil {line x : List Char} (h : matchDec line = some x) :
    x ≠ [] := by
  unfold matchDec at h
  split at h
  · exact absurd h (by simp)
  · split at h
    · simp only [Option.some.injEq] at h
      simp [← h]
    · exact absurd h (by simp)

/-- A successful zero match is nonempty. -/
theorem matchZero_ne_nil {line x : List Char} (h : matchZero line = some x) :
    x ≠ [] := by
  unfold matchZero at h
  repeat' split at h
  all_goals first
    | (simp only [Option.some.injEq] at h; simp [← h])
    | exact absurd h (by simp)

/-- A successful radix-literal match is nonempty. -/
theorem matchRadix_ne_nil {m₁ m₂ : Char} {isD : Char → Bool} {line x : List Char}
    (h : matchRadix m₁ m₂ isD line = some x) : x ≠ [] := by
  unfold matchRadix at h
  repeat' split at h
  all_goals first
    | (simp only [Option.some.injEq] at h; simp [← h])
    | exact absurd h (by simp)

/-- A successful integer-literal match is nonempty. -/
theorem matchInt_ne_nil {line m : List Char} (h : matchInt line = some m) :
    m ≠ [] := by
  unfold matchInt at h
  split at h
  · rename_i x heq
    injection h with h'
    subst h'
    exact matchDec_ne_nil heq
  · split at h
    · rename_i x heq
      injection h with h'
      subst h'
      exact matchZero_ne_nil heq
    · split at h
      · rename_i x heq
        injection h with h'
        subst h'
        exact matchRadix_ne_nil heq
      · split at h
        · rename_i x heq
          injection h with h'
          subst h'
          exact matchRadix_ne_nil heq
        · exact matchRadix_ne_nil h

/-- A keyword match consumes at least one character. -/
theorem tryTable1_pos {line : List Char} {k : String} {n : Nat}
    (h : tryTable1 line = some (k, n)) : 1 ≤ n := by
  unfold tryTable1 at h
  split at h
  · simp only [Option.some.injEq, Prod.mk.injEq] at h
    omega
  · split at h
    · simp only [Option.some.injEq, Prod.mk.injEq] at h
      omega
    · exact absurd h (by simp)

/-- A two-character operator match consumes at least one character. -/
theorem tryTable2_pos {line : List Char} {k : String} {n : Nat}
    (h : tryTable2 line = some (k, n)) : 1 ≤ n := by
  unfold tryTable2 at h
  split at h
  · simp only [Option.some.injEq, Prod.mk.injEq] at h
    omega
  · split at h
    · simp only [Option.some.injEq, Prod.mk.injEq] at h
      omega
    · exact absurd h (by simp)

/-- A single-character operator match consumes one character. -/
theorem tryTable3_pos {line : List Char} {k : String} {n : Nat}
    (h : tryTable3 line = some (k, n)) : 1 ≤ n := by
  unfold tryTable3 at h
  repeat' split at h
  all_goals first
    | (simp only [Option.some.injEq, Prod.mk.injEq] at h; omega)
    | exact absurd h (by simp)

/-- Every successful match of the cascade consumes at least one character. -/
theorem splitMatch_pos {row col : Nat} {line : List Char} {t : Token} {n : Nat}
    (h : splitMatch row col line = some (t, n)) : 1 ≤ n := by
  unfold splitMatch at h
  split at h
  · rename_i k m heq
    simp only [Option.some.injEq, Prod.mk.injEq] at h
    obtain ⟨-, rfl⟩ := h
    exact tryTable1_pos heq
  · split at h
    · rename_i k m heq
      simp only [Option.some.injEq, Prod.mk.injEq] at h
      obtain ⟨-, rfl⟩ := h
      exact tryTable2_pos heq
    · split at h
      · rename_i k m heq
        simp only [Option.some.injEq, Prod.mk.injEq] at h
        obtain ⟨-, rfl⟩ := h
        exact tryTable3_pos heq
      · split at h
        · rename_i name heq
          simp only [Option.some.injEq, Prod.mk.injEq] at h
          obtain ⟨-, rfl⟩ := h
          have hne := matchIdent_ne_nil heq
          have hlen : name.length ≠ 0 := by simpa using hne
          omega
        · split at h
          · rename_i m heq
            simp only [Option.some.injEq, Prod.mk.injEq] at h
            obtain ⟨-, rfl⟩ := h
            have hne := matchInt_ne_nil heq
            have hlen : m.length ≠ 0 := by simpa using hne
            omega
          · exact absurd h (by simp)

/-- The `while line:` loop of `split_word_pass`: match one token, advance
the column by the matched width only, strip following whitespace, repeat. -/
def splitLine (row col : Nat) (line : List Char) : PRes :=
  match line with
  | [] => .ok []
  | c :: cs =>
    match h : splitMatch row col (c :: cs) with
    | none => .err [] (row, col)
    | some (tok, n) =>
      prependTok tok (splitLine row (col + n) (pyLstrip ((c :: cs).drop n)))
termination_by line.length
decreasing_by
  have hn := splitMatch_pos h
  simp only [pyLstrip]
  refine Nat.lt_of_le_of_lt (List.dropWhile_sublist _).length_le ?_
  simp only [List.length_drop, List.length_cons]
  omega

/-- `split_word_pass` of `lexer.py`. -/
def split_word_pass : List Token → PRes
  | [] => .ok []
  | t :: rest =>
    if t.kind = "line" then
      match t.value with
      | .vStr v =>
        appendPRes (splitLine t.position.1 t.position.2 (pyStrip v))
          (fun _ => split_word_pass rest)
      | _ => .crash []
    else prependTok t (split_word_pass rest)

/-- `lexical_parse` of `lexer.py`: the composed pipeline. -/
def lexical_parse (source : List Char) : PRes :=
  seqPass (seqPass (seqPass (seqPass (break_line_pass source)
    string_literal_pass) comment_pass) indent_level_pass) split_word_pass

/-- The `TokenWalker` of `parser.py`: a lookahead buffer in front of the
remaining upstream token stream. -/
structure TokenWalker where
  buffer : List Token
  gen : List Token
deriving DecidableEq, Repr

/-- The pull loop of `TokenWalker.lookahead`: fill the buffer until it
holds more than `pos` tokens, then return the token at index `pos`.
`none` models the `StopIteration` raised by pulling past the stream. -/
def lookaheadGo (buf gen : List Token) (pos : Nat) : Option (Token × TokenWalker) :=
  if h : pos < buf.length then some (buf.get ⟨pos, h⟩, ⟨buf, gen⟩)
  else
    match gen with
    | [] => none
    | t :: g => lookaheadGo (buf ++ [t]) g pos

/-- `TokenWalker.lookahead`.  The returned walker is the post-call state
(the buffer may have grown). -/
def TokenWalker.lookahead (w : TokenWalker) (pos : Nat) : Option (Token × TokenWalker) :=
  lookaheadGo w.buffer w.gen pos

/-- Python truthiness of the optional `expect_kind` argument: `None` and
the empty string are falsy. -/
def kindTruthy : Option String → Bool
  | none => false
  | some k => k ≠ ""

/-- `TokenWalker.forward`.  `none` models `StopIteration` from the inner
`lookahead`; `Except.error` models a raised `ParseError` carrying the
offending token and the walker state at the raise (the front token is not
consumed); `Except.ok` returns the walker after `popleft`. -/
def TokenWalker.forward (w : TokenWalker) (expect : Option String) :
    Option (Except (Token × TokenWalker) TokenWalker) :=
  match w.lookahead 0 with
  | none => none
  | some (t, w') =>
    if kindTruthy expect ∧ t.kind ≠ expect.getD "" then some (.error (t, w'))
    else some (.ok ⟨w'.buffer.tail, w'.gen⟩)

/-- Lexicographic (row, column) order, non-strict. -/
def posLe (p q : Nat × Nat) : Prop := p.1 < q.1 ∨ (p.1 = q.1 ∧ p.2 ≤ q.2)

/-- Lexicographic (row, column) order, strict. -/
def posLt (p q : Nat × Nat) : Prop := p.1 < q.1 ∨ (p.1 = q.1 ∧ p.2 < q.2)

instance (p q : Nat × Nat) : Decidable (posLe p q) := by
  unfold posLe
  exact inferInstance

instance (p q : Nat × Nat) : Decidable (posLt p q) := by
  unfold posLt
  exact inferInstance

theorem posLe_refl (p : Nat × Nat) : posLe p p := Or.inr ⟨rfl, Nat.le_refl _⟩

theorem posLe_trans {p q r : Nat × Nat} (h₁ : posLe p q) (h₂ : posLe q r) :
    posLe p r := by
  unfold posLe at *
  omega

theorem posLe_step {r c c' : Nat} (h : c ≤ c') : posLe (r, c) (r, c') :=
  Or.inr ⟨rfl, h⟩

/-- Number of characters the token's value occupies on its row. -/
def valueLen : TokValue → Nat
  | .vStr s => s.length
  | _ => 0

/-- End position of a token: a `line` token extends over its value, every
other token is treated as occupying only its start position. -/
def endPos (t : Token) : Nat × Nat :=
  if t.kind = "line" then (t.position.1, t.position.2 + valueLen t.value)
  else t.position

theorem posLe_endPos (t : Token) : posLe t.position (endPos t) := by
  unfold endPos
  split
  · exact Or.inr ⟨rfl, Nat.le_add_right _ _⟩
  · exact posLe_refl _

/-- Stream order between two tokens: the first ends no later than the
second begins. -/
def tokLe (t u : Token) : Prop := posLe (endPos t) u.position

theorem tokLe_trans {t u v : Token} (h₁ : tokLe t u) (h₂ : tokLe u v) :
    tokLe t v :=
  posLe_trans h₁ (posLe_trans (posLe_endPos u) h₂)

theorem tokLe_posLe {t u : Token} (h : tokLe t u) : posLe t.position u.position :=
  posLe_trans (posLe_endPos t) h

/-- Claim C1: the spec says each of `0`, `0o17`, `0x1F`, `0b101`, reaching
the word splitter as a whole line token, yields a single `int` token with
values 0, 15, 31, 5 and consumed width equal to the literal's length.  The
code's integer regex tries the alternative `0` before the prefixed
alternatives, so Python's ordered alternation matches just `0` for the
prefixed literals: the splitter emits `int 0` of width 1 followed by a
`name` token for the rest.  Only `0` behaves as claimed. -/
theorem claim_C1_integer_literals :
    split_word_pass [⟨"line", (0, 0), .vStr "0".toList⟩] =
      .ok [⟨"int", (0, 0), .vInt 0⟩] ∧
    split_word_pass [⟨"line", (0, 0), .vStr "0o17".toList⟩] =
      .ok [⟨"int", (0, 0), .vInt 0⟩, ⟨"name", (0, 1), .vStr "o17".toList⟩] ∧
    split_word_pass [⟨"line", (0, 0), .vStr "0x1F".toList⟩] =
      .ok [⟨"int", (0, 0), .vInt 0⟩, ⟨"name", (0, 1), .vStr "x1F".toList⟩] ∧
    split_word_pass [⟨"line", (0, 0), .vStr "0b101".toList⟩] =
      .ok [⟨"int", (0, 0), .vInt 0⟩, ⟨"name", (0, 1), .vStr "b101".toList⟩] := by
  refine ⟨?_, ?_, ?_, ?_⟩ <;>
    simp +decide [split_word_pass, splitLine, splitMatch, tryTable1, tryTable2, tryTable3,
      matchIdent, matchInt, matchDec, matchZero, matchRadix, pyStrip, pyLstrip, pyRstrip,
      isPySpace, isIdentStart, isWordChar, isDigitChar, isOctChar, isHexChar, isBinChar,
      swList, pyIntBase0, foldDigits, digitVal, prependTok, appendPRes, prependToks]

/-- Claim C2: the spec says each word token's position is `(row, col + i)`
where `i` is the word's character index in the line value, including after
skipped whitespace.  The code advances `col_offset` only by the matched
width and strips the following whitespace without accounting for it, so on
the line value `a = b` at `(0, 0)` the `=` (value index 2) is emitted at
column 1 and `b` (value index 4) at column 2. -/
theorem claim_C2_word_positions_drift :
    split_word_pass [⟨"line", (0, 0), .vStr "a = b".toList⟩] =
      .ok [⟨"name", (0, 0), .vStr "a".toList⟩, ⟨"assign", (0, 1), .vNone⟩,
           ⟨"name", (0, 2), .vStr "b".toList⟩] := by
  simp +decide [split_word_pass, splitLine, splitMatch, tryTable1, tryTable2, tryTable3,
    matchIdent, matchInt, matchDec, matchZero, matchRadix, pyStrip, pyLstrip, pyRstrip,
    isPySpace, isIdentStart, isWordChar, isDigitChar, isOctChar, isHexChar, isBinChar,
    swList, pyIntBase0, foldDigits, digitVal, prependTok, appendPRes, prependToks]

/-- Claim C3: the spec says reaching end of input with a string still open
always raises the lexical error at the eof position, including when the
accumulated text is empty.  The code checks `if accumulated:` — falsy for
the empty string — so an opening quote as the last character of the source
is silently swallowed and `eof` is yielded without any error. -/
theorem claim_C3_unclosed_empty_accumulator :
    string_literal_pass [⟨"line", (0, 0), .vStr "\"".toList⟩, ⟨"eof", (0, 1), .vNone⟩] =
      .ok [⟨"eof", (0, 1), .vNone⟩] := by
  simp +decide [string_literal_pass, slGo, slLine, findQuote, searchClose, prependToks]

/-- Claim C4: the spec says every source text, including the empty string,
yields a finite stream terminated by one `eof` with no error.  On the
empty source the Python loop body never runs, so `source[-1]` (and the
unbound `row`/`line`) raise before anything is yielded: the pass crashes
instead of producing `eof`. -/
theorem claim_C4_empty_source_crashes :
    break_line_pass [] = .crash [] := by
  simp [break_line_pass]

/-- Claim C9: the spec says the closing quote is the first quote character
not immediately preceded by the escape marker.  The regex `[^\x5c]?(")`
backtracks its optional prefix to empty, so on the source line
`"a\"b"` followed by a newline the escaped quote (column 3) closes the
string: the pass emits `string "a\"` at `(0,1)`, a remainder line `b` at
`(0,4)`, reopens a string at column 5 and then fails unclosed at the eof
position — instead of one string `a\"b` closed at column 5. -/
theorem claim_C9_escaped_quote_closes :
    string_literal_pass [⟨"line", (0, 0), .vStr "\"a\\\"b\"\n".toList⟩,
        ⟨"eof", (1, 0), .vNone⟩] =
      .err [⟨"string", (0, 1), .vStr "a\\".toList⟩,
            ⟨"line", (0, 4), .vStr "b".toList⟩] (1, 0) := by
  simp +decide [string_literal_pass, slGo, slLine, findQuote, searchClose, prependToks]

/-- Claim C6 (counterexample): the spec says an indented first line fails
at `(row, col + w)`, the first non-whitespace character.  On the line
token `"  hello"` at `(0, 0)` (leading width 2) the code raises at the
token's own position `(0, 0)`, not at `(0, 2)`. -/
theorem claim_C6_counterexample :
    indent_level_pass [⟨"line", (0, 0), .vStr "  hello".toList⟩,
        ⟨"eof", (0, 7), .vNone⟩] = .err [] (0, 0) ∧
    ((0, 0) : Nat × Nat) ≠ (0, 2) := by
  constructor
  · simp +decide [indent_level_pass, indentGo, pyLstrip, isPySpace]
  · decide

/-- Claim C6 (amended): if the first line token reaching the indentation
tracker has nonzero leading-whitespace width, the tracker raises the
lexical error at the line token's own position `(row, col)` (after passing
through any earlier non-line tokens unchanged). -/
theorem claim_C6_amended (pre : List Token) (t : Token) (rest : List Token)
    (v : List Char)
    (hpre : ∀ p ∈ pre, p.kind ≠ "line" ∧ p.kind ≠ "eof")
    (hk : t.kind = "line") (hv : t.value = .vStr v)
    (hw : v.length - (pyLstrip v).length ≠ 0) :
    indent_level_pass (pre ++ t :: rest) = .err pre t.position := by
  unfold indent_level_pass
  induction pre with
  | nil =>
    simp only [List.nil_append]
    simp +decide [indentGo, hk, hv, hw]
  | cons p pre' ih =>
    obtain ⟨hp1, hp2⟩ := hpre p (List.mem_cons_self _ _)
    have ihh := ih (fun q hq => hpre q (List.mem_cons_of_mem _ hq))
    simp only [List.cons_append]
    simp only [indentGo, hp1, hp2, if_false, ite_false]
    rw [ihh]
    rfl

/-- Claim C6 (witness for the amended claim). -/
theorem claim_C6_witness :
    indent_level_pass [⟨"line", (0, 0), .vStr "  hello".toList⟩,
        ⟨"eof", (0, 7), .vNone⟩] = .err [] (0, 0) :=
  claim_C6_amended [] ⟨"line", (0, 0), .vStr "  hello".toList⟩
    [⟨"eof", (0, 7), .vNone⟩] ("  hello".toList) (by simp) rfl rfl (by decide)

/-- Claim C7: a line token whose leading-whitespace width `w` is smaller
than the stack top and not a member of the stack makes the tracker raise
the lexical error at `(row, col + w)` — the position just after the
leading whitespace — before emitting any `close_level` token for that
line (the emitted-token list of the raising step is empty). -/
theorem claim_C7_dedent_mismatch (top : Nat) (lv : List Nat) (t : Token)
    (rest : List Token) (v : List Char)
    (hk : t.kind = "line") (hv : t.value = .vStr v)
    (hlt : v.length - (pyLstrip v).length < top)
    (hmem : (v.length - (pyLstrip v).length) ∉ top :: lv) :
    indentGo (top :: lv) false (t :: rest) =
      .err [] (t.position.1, t.position.2 + (v.length - (pyLstrip v).length)) := by
  have hngt : ¬ (v.length - (pyLstrip v).length > top) := by omega
  simp +decide [indentGo, hk, hv, hngt, hlt, hmem]

/-- Claim C7 (witness). -/
theorem claim_C7_witness :
    indentGo [2, 0] false [⟨"line", (3, 0), .vStr " x".toList⟩] = .err [] (3, 1) :=
  claim_C7_dedent_mismatch 2 [0] ⟨"line", (3, 0), .vStr " x".toList⟩ []
    (" x".toList) rfl rfl (by decide) (by decide)

/-- The indentation-stack invariant of the spec: never empty, bottom
element 0, strictly increasing toward the top (the list holds the top at
its head, so it is strictly decreasing head-first and ends in 0). -/
def stackInv (lv : List Nat) : Prop :=
  lv ≠ [] ∧ lv.getLast? = some 0 ∧ List.Chain' (· > ·) lv

/-- Stack update performed by `indentGo` for one line value (ghost
projection of the pass, used to speak about the states of a run). -/
def newLevels (levels : List Nat) (v : List Char) : List Nat :=
  let w := v.length - (pyLstrip v).length
  match levels with
  | [] => []
  | top :: _ =>
    if w > top then w :: levels
    else if w < top then (popClose w (0, 0) levels).2
    else levels

/-- The sequence of stack states `indentGo` passes through, starting from
`levels`, up to (and including) the state at the first `eof`. -/
def indentStates (levels : List Nat) : List Token → List (List Nat)
  | [] => [levels]
  | t :: rest =>
    if t.kind = "eof" then [levels]
    else if t.kind = "line" then
      match t.value with
      | .vStr v => levels :: indentStates (newLevels levels v) rest
      | _ => [levels]
    else levels :: indentStates levels rest

/-- Yielding one token first does not change how a run succeeds. -/
theorem prependTok_ok {t : Token} {r : PRes} {out : List Token}
    (h : prependTok t r = .ok out) : ∃ out', r = .ok out' ∧ out = t :: out' := by
  cases r with
  | ok o => exact ⟨o, rfl, by simpa [prependTok] using h.symm⟩
  | err o p => exact absurd h (by simp [prependTok])
  | crash o => exact absurd h (by simp [prependTok])

/-- Yielding a batch of tokens first does not change how a run succeeds. -/
theorem prependToks_ok {ts : List Token} {r : PRes} {out : List Token}
    (h : prependToks ts r = .ok out) : ∃ out', r = .ok out' ∧ out = ts ++ out' := by
  cases r with
  | ok o => exact ⟨o, rfl, by simpa [prependToks] using h.symm⟩
  | err o p => exact absurd h (by simp [prependToks])
  | crash o => exact absurd h (by simp [prependToks])

/-- The popped stack of `popClose` does not depend on the position that is
stamped on the emitted tokens. -/
theorem popClose_snd_irrel (w : Nat) (p q : Nat × Nat) :
    ∀ lv, (popClose w p lv).2 = (popClose w q lv).2
  | [] => rfl
  | l :: ls => by
    by_cases hl : l = w
    · simp [popClose, hl]
    · simp [popClose, hl, popClose_snd_irrel w p q ls]

/-- Decomposition of `popClose` when the target level is on the stack:
the stack splits into a popped prefix (one `close_level` emitted per
entry, none of them equal to the target) and a kept suffix starting with
the target. -/
theorem popClose_spec (w : Nat) (p : Nat × Nat) :
    ∀ lv : List Nat, w ∈ lv →
    ∃ pre, lv = pre ++ (popClose w p lv).2 ∧
      (popClose w p lv).1 = pre.map (fun _ => (⟨"close_level", p, .vNone⟩ : Token)) ∧
      (∀ x ∈ pre, x ≠ w) ∧ (popClose w p lv).2.head? = some w
  | [], hmem => absurd hmem (by simp)
  | l :: ls, hmem => by
    by_cases hl : l = w
    · exact ⟨[], by simp [popClose, hl], by simp [popClose, hl], by simp,
        by simp [popClose, hl]⟩
    · have hmem' : w ∈ ls := by
        rcases List.mem_cons.mp hmem with h | h
        · exact absurd h.symm hl
        · exact h
      obtain ⟨pre, h1, h2, h3, h4⟩ := popClose_spec w p ls hmem'
      refine ⟨l :: pre, ?_, ?_, ?_, ?_⟩
      · simpa [popClose, hl] using h1
      · simp [popClose, hl, h2]
      · intro x hx
        rcases List.mem_cons.mp hx with rfl | hx'
        · exact hl
        · exact h3 x hx'
      · simpa [popClose, hl] using h4

/-- Unfolding of `indentStates` at a line token. -/
theorem indentStates_cons_line {t : Token} {v : List Char} (rest : List Token)
    (lv : List Nat) (hEof : t.kind ≠ "eof") (hLine : t.kind = "line")
    (hval : t.value = .vStr v) :
    indentStates lv (t :: rest) = lv :: indentStates (newLevels lv v) rest := by
  simp only [indentStates, hval]
  rw [if_neg hEof, if_pos hLine]

/-- Unfolding of `indentStates` at a pass-through token. -/
theorem indentStates_cons_other {t : Token} (rest : List Token) (lv : List Nat)
    (hEof : t.kind ≠ "eof") (hLine : t.kind ≠ "line") :
    indentStates lv (t :: rest) = lv :: indentStates lv rest := by
  simp only [indentStates]
  rw [if_neg hEof, if_neg hLine]

/-- Main inductive lemma for the indentation tracker: from any state
satisfying the stack invariant, a successful run that reaches `eof` emits
exactly one more `close_level` than `open_level` per nonzero level of the
starting stack, and every stack state along the run satisfies the
invariant. -/
theorem indentGo_spec (ts : List Token) :
    ∀ (lv : List Nat) (first : Bool) (out : List Token),
    stackInv lv →
    (∀ t ∈ ts, t.kind ≠ "open_level" ∧ t.kind ≠ "close_level") →
    (∃ t ∈ ts, t.kind = "eof") →
    indentGo lv first ts = .ok out →
    (out.countP (fun u => u.kind == "close_level") =
      out.countP (fun u => u.kind == "open_level") +
        (lv.filter (fun l => l ≠ 0)).length) ∧
    ∀ l ∈ indentStates lv ts, stackInv l := by
  induction ts with
  | nil =>
    intro lv first out _ _ heof _
    exact absurd heof (by simp)
  | cons t rest ih =>
    intro lv first out hinv hkinds heof h
    have hkinds' : ∀ u ∈ rest, u.kind ≠ "open_level" ∧ u.kind ≠ "close_level" :=
      fun u hu => hkinds u (List.mem_cons_of_mem _ hu)
    by_cases hEof : t.kind = "eof"
    · simp only [indentGo] at h
      rw [if_pos hEof] at h
      injection h with h'
      subst h'
      constructor
      · rw [List.countP_append, List.countP_append]
        have hall : ∀ x ∈ (lv.filter (fun l => l ≠ 0)).map
            (fun _ => (⟨"close_level", t.position, .vNone⟩ : Token)),
            (fun u => u.kind == "close_level") x = true := by
          intro x hx
          obtain ⟨a, _, rfl⟩ := List.mem_map.mp hx
          rfl
        rw [List.countP_eq_length.mpr hall, List.length_map]
        have hzero : ((lv.filter (fun l => l ≠ 0)).map
            (fun _ => (⟨"close_level", t.position, .vNone⟩ : Token))).countP
              (fun u => u.kind == "open_level") = 0 := by
          rw [List.countP_eq_zero]
          intro x hx
          obtain ⟨a, _, rfl⟩ := List.mem_map.mp hx
          simp
        rw [hzero]
        have h1 : List.countP (fun u => u.kind == "close_level") [t] = 0 := by
          simp +decide [List.countP_cons, hEof]
        have h2 : List.countP (fun u => u.kind == "open_level") [t] = 0 := by
          simp +decide [List.countP_cons, hEof]
        omega
      · simp only [indentStates]
        rw [if_pos hEof]
        intro l hl
        simp only [List.mem_singleton] at hl
        subst hl
        exact hinv
    · have heof' : ∃ u ∈ rest, u.kind = "eof" := by
        obtain ⟨u, hu, hue⟩ := heof
        rcases List.mem_cons.mp hu with rfl | hu'
        · exact absurd hue hEof
        · exact ⟨u, hu', hue⟩
      by_cases hLine : t.kind = "line"
      · simp only [indentGo] at h
        rw [if_neg hEof, if_pos hLine] at h
        split at h
        swap
        · exact absurd h (by simp)
        · rename_i v hval
          split at h
          · exact absurd h (by simp)
          · split at h
            · exact absurd h (by simp)
            · rename_i top tail
              -- lv is replaced by top :: tail in this branch
              split at h
              · -- indent increase
                rename_i hgt
                obtain ⟨out₁, h₁, rfl⟩ := prependTok_ok h
                obtain ⟨out₂, h₂, rfl⟩ := prependTok_ok h₁
                have hwne : v.length - (pyLstrip v).length ≠ 0 := by omega
                have hinv' : stackInv ((v.length - (pyLstrip v).length) :: top :: tail) := by
                  refine ⟨by simp, ?_, ?_⟩
                  · rw [List.getLast?_cons_cons]
                    exact hinv.2.1
                  · exact List.chain'_cons.mpr ⟨hgt, hinv.2.2⟩
                obtain ⟨hcount, hstates⟩ := ih _ false out₂ hinv' hkinds' heof' h₂
                constructor
                · have hfil : (((v.length - (pyLstrip v).length) :: top :: tail).filter
                      (fun l => l ≠ 0)).length =
                      ((top :: tail).filter (fun l => l ≠ 0)).length + 1 := by
                    rw [List.filter_cons_of_pos (by simpa using hwne)]
                    simp
                  simp +decide [List.countP_cons] at hcount hfil ⊢
                  omega
                · rw [indentStates_cons_line rest _ hEof hLine hval]
                  intro l hl
                  rcases List.mem_cons.mp hl with rfl | hl'
                  · exact hinv
                  · refine hstates l ?_
                    have hnew : newLevels (top :: tail) v =
                        (v.length - (pyLstrip v).length) :: top :: tail := by
                      simp only [newLevels]
                      rw [if_pos hgt]
                    rw [hnew] at hl'
                    exact hl'
              · split at h
                · split at h
                  · exact absurd h (by simp)
                  · -- dedent to a level on the stack
                    rename_i hngt hlt hmemn
                    have hmem : v.length - (pyLstrip v).length ∈ top :: tail :=
                      Decidable.not_not.mp hmemn
                    obtain ⟨out₁, h₁, rfl⟩ := prependToks_ok h
                    obtain ⟨out₂, h₂, rfl⟩ := prependTok_ok h₁
                    obtain ⟨pre, hsplit, hfst, hprene, hhead⟩ :=
                      popClose_spec (v.length - (pyLstrip v).length)
                        (t.position.1, t.position.2 + (v.length - (pyLstrip v).length))
                        (top :: tail) hmem
                    have hpair : List.Pairwise (· > ·) (top :: tail) :=
                      List.chain'_iff_pairwise.mp hinv.2.2
                    have hpair' := hsplit ▸ hpair
                    have hcross := (List.pairwise_append.mp hpair').2.2
                    have hlv₂ne : (popClose (v.length - (pyLstrip v).length)
                        (t.position.1, t.position.2 + (v.length - (pyLstrip v).length))
                        (top :: tail)).2 ≠ [] := by
                      intro hc
                      rw [hc] at hhead
                      exact absurd hhead (by simp)
                    have hmemw : v.length - (pyLstrip v).length ∈
                        (popClose (v.length - (pyLstrip v).length) (t.position.1, t.position.2 + (v.length - (pyLstrip v).length)) (top :: tail)).2 := by
                      cases hx : (popClose (v.length - (pyLstrip v).length) (t.position.1, t.position.2 + (v.length - (pyLstrip v).length)) (top :: tail)).2 with
                      | nil => exact absurd hx hlv₂ne
                      | cons a l =>
                        rw [hx] at hhead
                        simp only [List.head?_cons, Option.some.injEq] at hhead
                        rw [hhead]
                        exact List.mem_cons_self _ _
                    have hpregt : ∀ x ∈ pre, x > v.length - (pyLstrip v).length :=
                      fun x hx => hcross x hx _ hmemw
                    have hinv₂ : stackInv (popClose (v.length - (pyLstrip v).length)
                        (t.position.1, t.position.2 + (v.length - (pyLstrip v).length))
                        (top :: tail)).2 := by
                      refine ⟨hlv₂ne, ?_, ?_⟩
                      · have := hinv.2.1
                        rw [hsplit, List.getLast?_append_of_ne_nil _ hlv₂ne] at this
                        exact this
                      · exact List.chain'_iff_pairwise.mpr
                          (List.pairwise_append.mp hpair').2.1
                    obtain ⟨hcount, hstates⟩ := ih _ false out₂ hinv₂ hkinds' heof' h₂
                    constructor
                    · have hc1 : (popClose (v.length - (pyLstrip v).length)
                          (t.position.1, t.position.2 + (v.length - (pyLstrip v).length))
                          (top :: tail)).1.countP (fun u => u.kind == "close_level") =
                          pre.length := by
                        rw [hfst]
                        have : ∀ x ∈ pre.map (fun _ =>
                            (⟨"close_level", (t.position.1, t.position.2 +
                              (v.length - (pyLstrip v).length)), .vNone⟩ : Token)),
                            (fun u => u.kind == "close_level") x = true := by
                          intro x hx
                          obtain ⟨a, _, rfl⟩ := List.mem_map.mp hx
                          rfl
                        rw [List.countP_eq_length.mpr this, List.length_map]
                      have hc2 : (popClose (v.length - (pyLstrip v).length)
                          (t.position.1, t.position.2 + (v.length - (pyLstrip v).length))
                          (top :: tail)).1.countP (fun u => u.kind == "open_level") = 0 := by
                        rw [hfst, List.countP_eq_zero]
                        intro x hx
                        obtain ⟨a, _, rfl⟩ := List.mem_map.mp hx
                        simp
                      have hflen : ((top :: tail).filter (fun l => l ≠ 0)).length =
                          pre.length + ((popClose (v.length - (pyLstrip v).length)
                            (t.position.1, t.position.2 + (v.length - (pyLstrip v).length))
                            (top :: tail)).2.filter (fun l => l ≠ 0)).length := by
                        conv_lhs => rw [hsplit]
                        rw [List.filter_append, List.length_append]
                        have : pre.filter (fun l => l ≠ 0) = pre := by
                          rw [List.filter_eq_self]
                          intro a ha
                          have := hpregt a ha
                          simp only [ne_eq, decide_eq_true_eq]
                          omega
                        rw [this]
                      rw [List.countP_append, List.countP_append, hc1, hc2]
                      simp +decide [List.countP_cons] at hcount hflen ⊢
                      omega
                    · rw [indentStates_cons_line rest _ hEof hLine hval]
                      intro l hl
                      rcases List.mem_cons.mp hl with rfl | hl'
                      · exact hinv
                      · refine hstates l ?_
                        have hnew : newLevels (top :: tail) v =
                            (popClose (v.length - (pyLstrip v).length)
                              (t.position.1, t.position.2 +
                                (v.length - (pyLstrip v).length)) (top :: tail)).2 := by
                          simp only [newLevels]
                          rw [if_neg hngt, if_pos hlt]
                          exact popClose_snd_irrel _ _ _ _
                        rw [hnew] at hl'
                        exact hl'
                · -- equal indentation
                  rename_i hngt hnlt
                  obtain ⟨out₁, h₁, rfl⟩ := prependTok_ok h
                  obtain ⟨hcount, hstates⟩ := ih _ false out₁ hinv hkinds' heof' h₁
                  constructor
                  · simp +decide [List.countP_cons] at hcount ⊢
                    omega
                  · rw [indentStates_cons_line rest _ hEof hLine hval]
                    intro l hl
                    rcases List.mem_cons.mp hl with rfl | hl'
                    · exact hinv
                    · refine hstates l ?_
                      have hnew : newLevels (top :: tail) v = top :: tail := by
                        simp only [newLevels]
                        rw [if_neg hngt, if_neg hnlt]
                      rw [hnew] at hl'
                      exact hl'
      · simp only [indentGo] at h
        rw [if_neg hEof, if_neg hLine] at h
        obtain ⟨out', hr, rfl⟩ := prependTok_ok h
        have hk := hkinds t (List.mem_cons_self _ _)
        obtain ⟨hcount, hstates⟩ := ih lv first out' hinv hkinds' heof' hr
        constructor
        · have h1 : (t.kind == "close_level") = false := by
            simp [hk.2]
          have h2 : (t.kind == "open_level") = false := by
            simp [hk.1]
          simp [List.countP_cons, h1, h2] at hcount ⊢
          omega
        · rw [indentStates_cons_other rest lv hEof hLine]
          intro l hl
          rcases List.mem_cons.mp hl with rfl | hl'
          · exact hinv
          · exact hstates l hl'

/-- Claim C5: on well-formed input (a run of the indentation tracker that
succeeds and reaches `eof`; the tracker's input carries no structural
tokens), every stack state of the run is non-empty with bottom element 0
and strictly increasing toward the top (the head of the list is the top),
and the emitted `open_level` and `close_level` tokens are equal in
number. -/
theorem claim_C5_indent_balance (ts out : List Token)
    (hok : indent_level_pass ts = .ok out)
    (heof : ∃ t ∈ ts, t.kind = "eof")
    (hkinds : ∀ t ∈ ts, t.kind ≠ "open_level" ∧ t.kind ≠ "close_level") :
    out.countP (fun u => u.kind == "open_level") =
      out.countP (fun u => u.kind == "close_level") ∧
    ∀ l ∈ indentStates [0] ts, l ≠ [] ∧ l.getLast? = some 0 ∧
      List.Chain' (· > ·) l := by
  obtain ⟨hc, hs⟩ := indentGo_spec ts [0] true out ⟨by simp, by simp, by simp⟩
    hkinds heof hok
  refine ⟨?_, fun l hl => hs l hl⟩
  simp only [List.filter, List.length_nil] at hc
  simp at hc
  omega

/-- Claim C5 (witness). -/
theorem claim_C5_witness :
    ([⟨"line", (0, 0), .vStr "hello".toList⟩, ⟨"open_level", (1, 2), .vNone⟩,
      ⟨"line", (1, 2), .vStr "cowsay".toList⟩, ⟨"close_level", (2, 0), .vNone⟩,
      ⟨"eof", (2, 0), .vNone⟩] : List Token).countP
        (fun u => u.kind == "open_level") =
      ([⟨"line", (0, 0), .vStr "hello".toList⟩, ⟨"open_level", (1, 2), .vNone⟩,
        ⟨"line", (1, 2), .vStr "cowsay".toList⟩, ⟨"close_level", (2, 0), .vNone⟩,
        ⟨"eof", (2, 0), .vNone⟩] : List Token).countP
          (fun u => u.kind == "close_level") ∧
    ∀ l ∈ indentStates [0]
      [⟨"line", (0, 0), .vStr "hello".toList⟩,
       ⟨"line", (1, 0), .vStr "  cowsay".toList⟩, ⟨"eof", (2, 0), .vNone⟩],
      l ≠ [] ∧ l.getLast? = some 0 ∧ List.Chain' (· > ·) l :=
  claim_C5_indent_balance
    [⟨"line", (0, 0), .vStr "hello".toList⟩,
     ⟨"line", (1, 0), .vStr "  cowsay".toList⟩, ⟨"eof", (2, 0), .vNone⟩]
    [⟨"line", (0, 0), .vStr "hello".toList⟩, ⟨"open_level", (1, 2), .vNone⟩,
     ⟨"line", (1, 2), .vStr "cowsay".toList⟩, ⟨"close_level", (2, 0), .vNone⟩,
     ⟨"eof", (2, 0), .vNone⟩]
    (by decide) (by decide) (by decide)

/-- What a successful `lookahead` pull guarantees: the returned token is
at index `pos` of the returned walker's buffer, and the total stream
(buffer then remaining generator) is unchanged. -/
theorem lookaheadGo_spec (gen : List Token) : ∀ (buf : List Token) (pos : Nat)
    (t : Token) (w' : TokenWalker),
    lookaheadGo buf gen pos = some (t, w') →
    w'.buffer.get? pos = some t ∧ w'.buffer ++ w'.gen = buf ++ gen := by
  induction gen with
  | nil =>
    intro buf pos t w' h
    unfold lookaheadGo at h
    split at h
    · rename_i hlt
      simp only [Option.some.injEq, Prod.mk.injEq] at h
      obtain ⟨h1, h2⟩ := h
      subst h2
      exact ⟨by rw [List.get?_eq_get hlt, h1], rfl⟩
    · exact absurd h (by simp)
  | cons g gs ih =>
    intro buf pos t w' h
    unfold lookaheadGo at h
    split at h
    · rename_i hlt
      simp only [Option.some.injEq, Prod.mk.injEq] at h
      obtain ⟨h1, h2⟩ := h
      subst h2
      exact ⟨by rw [List.get?_eq_get hlt, h1], rfl⟩
    · obtain ⟨ha, hb⟩ := ih (buf ++ [g]) pos t w' h
      refine ⟨ha, ?_⟩
      rw [hb, List.append_assoc]
      rfl

/-- Claim C10 (counterexample): the spec says `forward` raises a parse
error exactly when `expect_kind` is given and differs from the front
token's kind.  Passing the given-but-empty kind `""` (falsy in Python)
with front kind `"name"` consumes the token without raising. -/
theorem claim_C10_counterexample :
    TokenWalker.forward ⟨[], [⟨"name", (0, 0), .vNone⟩]⟩ (some "") =
      some (.ok ⟨[], []⟩) ∧ ("" : String) ≠ "name" := by
  constructor
  · rfl
  · decide

/-- Unfolding of `forward` once the front of the stream is known. -/
theorem forward_eq (w : TokenWalker) (expect : Option String) (t0 : Token)
    (w0 : TokenWalker) (hfront : w.lookahead 0 = some (t0, w0)) :
    w.forward expect =
      if kindTruthy expect ∧ t0.kind ≠ expect.getD "" then
        some (.error (t0, w0))
      else some (.ok ⟨w0.buffer.tail, w0.gen⟩) := by
  unfold TokenWalker.forward
  rw [hfront]

/-- Claim C10 (amended): `forward(expect_kind)` raises a `ParseError`
carrying the front-of-buffer token exactly when `expect_kind` is given as
a non-empty string that differs from that token's kind; on that error the
front token is not consumed (`lookahead 0` on the carried walker state
returns the same token), and otherwise exactly the front token is
discarded from the stream. -/
theorem claim_C10_amended (w : TokenWalker) (expect : Option String)
    (t0 : Token) (w0 : TokenWalker)
    (hfront : w.lookahead 0 = some (t0, w0)) :
    (w.forward expect = some (.error (t0, w0)) ↔
      ∃ k, expect = some k ∧ k ≠ "" ∧ t0.kind ≠ k) ∧
    w0.lookahead 0 = some (t0, w0) ∧
    ((¬ ∃ k, expect = some k ∧ k ≠ "" ∧ t0.kind ≠ k) →
      w.forward expect = some (.ok ⟨w0.buffer.tail, w0.gen⟩) ∧
      w0.buffer.head? = some t0 ∧
      t0 :: (w0.buffer.tail ++ w0.gen) = w.buffer ++ w.gen) := by
  obtain ⟨hget, hstream⟩ := lookaheadGo_spec w.gen w.buffer 0 t0 w0 hfront
  obtain ⟨hlen, hgetv⟩ := List.get?_eq_some.mp hget
  have hcond : (kindTruthy expect ∧ t0.kind ≠ expect.getD "") ↔
      ∃ k, expect = some k ∧ k ≠ "" ∧ t0.kind ≠ k := by
    cases expect with
    | none => simp [kindTruthy]
    | some k =>
      simp only [kindTruthy, Option.getD_some, ne_eq, decide_not]
      constructor
      · rintro ⟨hk, hne⟩
        refine ⟨k, rfl, ?_, hne⟩
        simpa using hk
      · rintro ⟨k', hk', hne', hne⟩
        obtain rfl : k = k' := by injection hk'
        exact ⟨by simpa using hne', hne⟩
  have hidem : w0.lookahead 0 = some (t0, w0) := by
    unfold TokenWalker.lookahead lookaheadGo
    rw [dif_pos hlen]
    rw [hgetv]
  have hbufcons : w0.buffer = t0 :: w0.buffer.tail := by
    cases hb : w0.buffer with
    | nil => rw [hb] at hlen; exact absurd hlen (by simp)
    | cons b bs =>
      rw [hb] at hget
      simp only [List.get?] at hget
      injection hget with hget
      rw [hget]
      rfl
  refine ⟨?_, hidem, ?_⟩
  · rw [forward_eq w expect t0 w0 hfront]
    by_cases hc : kindTruthy expect ∧ t0.kind ≠ expect.getD ""
    · rw [if_pos hc]
      exact iff_of_true rfl (hcond.mp hc)
    · rw [if_neg hc]
      exact iff_of_false (by simp) (fun hex => hc (hcond.mpr hex))
  · intro hnot
    have hc : ¬ (kindTruthy expect ∧ t0.kind ≠ expect.getD "") :=
      fun hx => hnot (hcond.mp hx)
    refine ⟨?_, ?_, ?_⟩
    · rw [forward_eq w expect t0 w0 hfront, if_neg hc]
    · rw [hbufcons]
      rfl
    · calc t0 :: (w0.buffer.tail ++ w0.gen)
          = (t0 :: w0.buffer.tail) ++ w0.gen := rfl
        _ = w0.buffer ++ w0.gen := by rw [← hbufcons]
        _ = w.buffer ++ w.gen := hstream

/-- Claim C10 (witness for the amended claim). -/
theorem claim_C10_witness :
    TokenWalker.forward ⟨[], [⟨"name", (0, 0), .vNone⟩]⟩ (some "x") =
      some (.error (⟨"name", (0, 0), .vNone⟩,
        ⟨[⟨"name", (0, 0), .vNone⟩], []⟩)) :=
  (claim_C10_amended ⟨[], [⟨"name", (0, 0), .vNone⟩]⟩ (some "x")
    ⟨"name", (0, 0), .vNone⟩ ⟨[⟨"name", (0, 0), .vNone⟩], []⟩ rfl).1.mpr
    ⟨"x", rfl, by decide, by decide⟩

/-- Lower bound for the positions still to be emitted from a string-pass
state: the recorded string position when a string is open, otherwise the
given cursor position. -/
def stLB : SLState → (Nat × Nat) → (Nat × Nat)
  | some (_, sp), _ => sp
  | none, p => p

theorem stLB_none (p : Nat × Nat) : stLB none p = p := rfl

theorem stLB_some (acc : List Char) (sp p : Nat × Nat) :
    stLB (some (acc, sp)) p = sp := rfl

/-- A found quote index is inside the line. -/
theorem findQuote_lt : ∀ {l : List Char} {o : Nat}, findQuote l = some o → o < l.length := by
  intro l
  induction l with
  | nil => intro o h; simp [findQuote] at h
  | cons c cs ih =>
    intro o h
    simp only [findQuote] at h
    split at h
    · simp only [Option.some.injEq] at h
      simp only [List.length_cons]
      omega
    · simp only [Option.map_eq_some'] at h
      obtain ⟨o', ho', rfl⟩ := h
      have := ih ho'
      simp only [List.length_cons]
      omega

/-- The capture-group start found by the close-quote search is inside the
line. -/
theorem searchClose_lt : ∀ (l : List Char) (o : Nat), searchClose l = some o → o < l.length
  | [], o, h => by simp [searchClose] at h
  | [c], o, h => by
    simp only [searchClose] at h
    split at h
    · simp only [Option.some.injEq] at h
      simp only [List.length_cons, List.length_nil]
      omega
    · simp at h
  | c₁ :: c₂ :: rest, o, h => by
    simp only [searchClose] at h
    split at h
    · simp only [Option.some.injEq] at h
      simp only [List.length_cons]
      omega
    · split at h
      · simp only [Option.some.injEq] at h
        simp only [List.length_cons]
        omega
      · simp only [Option.map_eq_some'] at h
        obtain ⟨o', ho', rfl⟩ := h
        have := searchClose_lt (c₂ :: rest) o' ho'
        simp only [List.length_cons] at this ⊢
        omega

/-- End position of a `line` token literal. -/
theorem endPos_line (p : Nat × Nat) (v : List Char) :
    endPos ⟨"line", p, .vStr v⟩ = (p.1, p.2 + v.length) := by
  simp [endPos, valueLen]

/-- End position of a non-`line` token literal. -/
theorem endPos_of_ne (k : String) (p : Nat × Nat) (val : TokValue)
    (h : k ≠ "line") : endPos ⟨k, p, val⟩ = p := by
  simp [endPos, h]

/-- The conclusions of `slLine_spec`, as a predicate on the loop's
arguments. -/
def slLineOk (st : SLState) (row col : Nat) (line : List Char) : Prop :=
  List.Pairwise tokLe (slLine st row col line).1 ∧
  (∀ t ∈ (slLine st row col line).1,
    posLe (stLB st (row, col)) t.position ∧
    posLe (endPos t) (stLB (slLine st row col line).2 (row, col + line.length))) ∧
  (∀ acc sp, (slLine st row col line).2 = some (acc, sp) →
    posLe (stLB st (row, col)) sp ∧ posLe sp (row, col + line.length))

/-- `slLineOk` on the empty remainder. -/
theorem slLine_spec_nil (st : SLState) (row col : Nat)
    (hInv : ∀ acc sp, st = some (acc, sp) → posLe sp (row, col)) :
    slLineOk st row col [] := by
  unfold slLineOk
  simp only [slLine]
  refine ⟨List.Pairwise.nil, ?_, ?_⟩
  · intro t ht
    exact absurd ht (by simp)
  · intro acc sp hsp
    subst hsp
    refine ⟨posLe_refl _, ?_⟩
    have := hInv acc sp rfl
    simp only [List.length_nil, Nat.add_zero]
    exact this

/-- Specification of the inner string-pass loop on one line: the emitted
tokens are stream-ordered, bounded below by the state's lower bound and
above by the final state's lower bound at the end of the line, and an
open final state records a position inside the consumed region. -/
theorem slLine_spec : ∀ (n : Nat) (line : List Char), line.length ≤ n →
    ∀ (st : SLState) (row col : Nat),
    (∀ acc sp, st = some (acc, sp) → posLe sp (row, col)) →
    slLineOk st row col line := by
  intro n
  induction n with
  | zero =>
    intro line hlen st row col hInv
    have hnil : line = [] := List.eq_nil_of_length_eq_zero (Nat.le_zero.mp hlen)
    subst hnil
    exact slLine_spec_nil st row col hInv
  | succ n ihn =>
    intro line hlen st row col hInv
    cases line with
    | nil => exact slLine_spec_nil st row col hInv
    | cons c rest =>
      cases st with
      | none =>
        cases hfind : findQuote (c :: rest) with
        | none =>
          unfold slLineOk
          simp only [slLine, hfind]
          refine ⟨List.pairwise_singleton _ _, ?_, ?_⟩
          · intro t ht
            simp only [List.mem_singleton] at ht
            subst ht
            refine ⟨posLe_refl _, ?_⟩
            rw [endPos_line]
            exact posLe_refl _
          · intro acc sp hsp
            exact absurd hsp (by simp)
        | some offset =>
          have hofflt := findQuote_lt hfind
          have hrecl : (List.drop (offset + 1) (c :: rest)).length ≤ n := by
            simp only [List.length_drop, List.length_cons] at hlen ⊢
            omega
          have hcols : col + offset + 1 + (List.drop (offset + 1) (c :: rest)).length =
              col + (c :: rest).length := by
            simp only [List.length_drop, List.length_cons] at hofflt ⊢
            omega
          have heqp : ((row, col + offset + 1 +
              (List.drop (offset + 1) (c :: rest)).length) : Nat × Nat) =
              (row, col + (c :: rest).length) := by
            rw [hcols]
          obtain ⟨ihp, ihb, ihs⟩ := ihn (List.drop (offset + 1) (c :: rest)) hrecl
            (some ([], (row, col + offset + 1))) row (col + offset + 1)
            (by
              intro acc sp hsp
              simp only [Option.some.injEq, Prod.mk.injEq] at hsp
              obtain ⟨-, rfl⟩ := hsp
              exact posLe_refl _)
          by_cases hpre : List.take offset (c :: rest) = []
          · have hveq : slLine none row col (c :: rest) =
                slLine (some ([], (row, col + offset + 1))) row (col + offset + 1)
                  (List.drop (offset + 1) (c :: rest)) := by
              simp only [slLine, hfind]
              rw [if_pos hpre]
            unfold slLineOk
            rw [hveq]
            refine ⟨ihp, ?_, ?_⟩
            · intro t ht
              obtain ⟨hb1, hb2⟩ := ihb t ht
              refine ⟨?_, ?_⟩
              · simp only [stLB_none, stLB_some] at hb1 ⊢
                exact posLe_trans (posLe_step (by omega)) hb1
              · rw [← heqp]
                exact hb2
            · intro acc sp hsp
              obtain ⟨hs1, hs2⟩ := ihs acc sp hsp
              refine ⟨?_, ?_⟩
              · simp only [stLB_none, stLB_some] at hs1 ⊢
                exact posLe_trans (posLe_step (by omega)) hs1
              · rw [← heqp]
                exact hs2
          · have hveq : slLine none row col (c :: rest) =
                (⟨"line", (row, col), .vStr (List.take offset (c :: rest))⟩ ::
                  (slLine (some ([], (row, col + offset + 1))) row (col + offset + 1)
                    (List.drop (offset + 1) (c :: rest))).1,
                 (slLine (some ([], (row, col + offset + 1))) row (col + offset + 1)
                    (List.drop (offset + 1) (c :: rest))).2) := by
              simp only [slLine, hfind]
              rw [if_neg hpre]
            have htake : (List.take offset (c :: rest)).length = offset :=
              List.length_take_of_le (by simp only [List.length_cons] at hofflt ⊢; omega)
            have hend : endPos ⟨"line", (row, col),
                .vStr (List.take offset (c :: rest))⟩ = (row, col + offset) := by
              rw [endPos_line, htake]
            unfold slLineOk
            rw [hveq]
            refine ⟨?_, ?_, ?_⟩
            · refine List.pairwise_cons.mpr ⟨?_, ihp⟩
              intro u hu
              obtain ⟨hb1, -⟩ := ihb u hu
              simp only [stLB_some] at hb1
              unfold tokLe
              rw [hend]
              exact posLe_trans (posLe_step (by omega)) hb1
            · intro t ht
              rcases List.mem_cons.mp ht with rfl | ht2
              · refine ⟨posLe_refl _, ?_⟩
                rw [hend]
                cases hr2 : (slLine (some ([], (row, col + offset + 1))) row
                    (col + offset + 1) (List.drop (offset + 1) (c :: rest))).2 with
                | none =>
                  simp only [stLB_none]
                  refine Or.inr ⟨rfl, ?_⟩
                  simp only [List.length_cons] at hofflt ⊢
                  omega
                | some pair =>
                  obtain ⟨acc2, sp2⟩ := pair
                  obtain ⟨hs1, -⟩ := ihs acc2 sp2 hr2
                  simp only [stLB_some] at hs1 ⊢
                  exact posLe_trans (posLe_step (by omega)) hs1
              · obtain ⟨hb1, hb2⟩ := ihb t ht2
                refine ⟨?_, ?_⟩
                · simp only [stLB_none, stLB_some] at hb1 ⊢
                  exact posLe_trans (posLe_step (by omega)) hb1
                · rw [← heqp]
                  exact hb2
            · intro acc sp hsp
              obtain ⟨hs1, hs2⟩ := ihs acc sp hsp
              refine ⟨?_, ?_⟩
              · simp only [stLB_none, stLB_some] at hs1 ⊢
                exact posLe_trans (posLe_step (by omega)) hs1
              · rw [← heqp]
                exact hs2
      | some pair =>
        obtain ⟨acc, sp⟩ := pair
        have hsp := hInv acc sp rfl
        cases hsearch : searchClose (c :: rest) with
        | none =>
          unfold slLineOk
          simp only [slLine, hsearch]
          refine ⟨List.Pairwise.nil, ?_, ?_⟩
          · intro t ht
            exact absurd ht (by simp)
          · intro acc2 sp2 hsp2
            simp only [Option.some.injEq, Prod.mk.injEq] at hsp2
            obtain ⟨-, rfl⟩ := hsp2
            refine ⟨posLe_refl _, ?_⟩
            exact posLe_trans hsp (posLe_step (by omega))
        | some offset =>
          have hofflt := searchClose_lt _ _ hsearch
          have hrecl : (List.drop (offset + 1) (c :: rest)).length ≤ n := by
            simp only [List.length_drop, List.length_cons] at hlen ⊢
            omega
          have hcols : col + offset + 1 + (List.drop (offset + 1) (c :: rest)).length =
              col + (c :: rest).length := by
            simp only [List.length_drop, List.length_cons] at hofflt ⊢
            omega
          have heqp : ((row, col + offset + 1 +
              (List.drop (offset + 1) (c :: rest)).length) : Nat × Nat) =
              (row, col + (c :: rest).length) := by
            rw [hcols]
          obtain ⟨ihp, ihb, ihs⟩ := ihn (List.drop (offset + 1) (c :: rest)) hrecl
            none row (col + offset + 1)
            (by intro acc2 sp2 hsp2; exact absurd hsp2 (by simp))
          have hveq : slLine (some (acc, sp)) row col (c :: rest) =
              (⟨"string", sp, .vStr (acc ++ List.take offset (c :: rest))⟩ ::
                (slLine none row (col + offset + 1)
                  (List.drop (offset + 1) (c :: rest))).1,
               (slLine none row (col + offset + 1)
                  (List.drop (offset + 1) (c :: rest))).2) := by
            simp only [slLine, hsearch]
          have hend : endPos ⟨"string", sp,
              .vStr (acc ++ List.take offset (c :: rest))⟩ = sp :=
            endPos_of_ne "string" sp (.vStr (acc ++ List.take offset (c :: rest)))
              (by decide)
          have hsp2 : posLe sp (row, col + offset + 1) :=
            posLe_trans hsp (posLe_step (by omega))
          unfold slLineOk
          rw [hveq]
          refine ⟨?_, ?_, ?_⟩
          · refine List.pairwise_cons.mpr ⟨?_, ihp⟩
            intro u hu
            obtain ⟨hb1, -⟩ := ihb u hu
            simp only [stLB_none] at hb1
            unfold tokLe
            rw [hend]
            exact posLe_trans hsp2 hb1
          · intro t ht
            rcases List.mem_cons.mp ht with rfl | ht2
            · refine ⟨posLe_refl _, ?_⟩
              rw [hend]
              cases hr2 : (slLine none row (col + offset + 1)
                  (List.drop (offset + 1) (c :: rest))).2 with
              | none =>
                simp only [stLB_none]
                exact posLe_trans hsp (posLe_step (by omega))
              | some pair2 =>
                obtain ⟨acc2, sp3⟩ := pair2
                obtain ⟨hs1, -⟩ := ihs acc2 sp3 hr2
                simp only [stLB_none, stLB_some] at hs1 ⊢
                exact posLe_trans hsp2 hs1
            · obtain ⟨hb1, hb2⟩ := ihb t ht2
              refine ⟨?_, ?_⟩
              · simp only [stLB_none, stLB_some] at hb1 ⊢
                exact posLe_trans hsp2 hb1
              · rw [← heqp]
                exact hb2
          · intro acc2 sp3 hsp3
            obtain ⟨hs1, hs2⟩ := ihs acc2 sp3 hsp3
            refine ⟨?_, ?_⟩
            · simp only [stLB_none, stLB_some] at hs1 ⊢
              exact posLe_trans hsp2 hs1
            · rw [← heqp]
              exact hs2

theorem posLe_zero (p : Nat × Nat) : posLe (0, 0) p := by
  unfold posLe
  omega

/-- Monotonicity of the token loop of the string pass: on a stream-ordered
input whose tokens all lie at or after `b`, with any open string recorded
at or before `b`, a successful run emits a stream-ordered output bounded
below by the state's lower bound. -/
theorem slGo_spec (ts : List Token) : ∀ (st : SLState) (b : Nat × Nat)
    (out : List Token),
    List.Pairwise tokLe ts →
    (∀ t ∈ ts, posLe b t.position) →
    (∀ acc sp, st = some (acc, sp) → posLe sp b) →
    slGo st ts = .ok out →
    List.Pairwise tokLe out ∧ ∀ t ∈ out, posLe (stLB st b) t.position := by
  induction ts with
  | nil =>
    intro st b out _ _ _ h
    simp only [slGo] at h
    injection h with h'
    subst h'
    exact ⟨List.Pairwise.nil, by intro t ht; exact absurd ht (by simp)⟩
  | cons t rest ih =>
    intro st b out hp hlb hst h
    simp only [slGo] at h
    by_cases hEof : t.kind = "eof"
    · rw [if_pos hEof] at h
      split at h
      · rename_i acc sp
        by_cases hacc : acc ≠ []
        · rw [if_pos hacc] at h
          exact absurd h (by simp)
        · rw [if_neg hacc] at h
          injection h with h'
          subst h'
          refine ⟨List.pairwise_singleton _ _, ?_⟩
          intro u hu
          simp only [List.mem_singleton] at hu
          rw [hu]
          simp only [stLB_some]
          exact posLe_trans (hst acc sp rfl) (hlb t (List.mem_cons_self _ _))
      · injection h with h'
        subst h'
        refine ⟨List.pairwise_singleton _ _, ?_⟩
        intro u hu
        simp only [List.mem_singleton] at hu
        rw [hu]
        simp only [stLB_none]
        exact hlb t (List.mem_cons_self _ _)
    · rw [if_neg hEof] at h
      by_cases hLine : t.kind = "line"
      · rw [if_pos hLine] at h
        split at h
        swap
        · exact absurd h (by simp)
        · rename_i v hval
          obtain ⟨out2, hrec, rfl⟩ := prependToks_ok h
          obtain ⟨hhead, htail⟩ := List.pairwise_cons.mp hp
          have hbt : posLe b t.position := hlb t (List.mem_cons_self _ _)
          have hend : endPos t = (t.position.1, t.position.2 + v.length) := by
            simp [endPos, hLine, hval, valueLen]
          have hInv : ∀ acc sp, st = some (acc, sp) →
              posLe sp (t.position.1, t.position.2) := by
            intro acc sp hsp
            have h1 := posLe_trans (hst acc sp hsp) hbt
            simpa using h1
          obtain ⟨sp1, sb, ss⟩ := slLine_spec v.length v (le_refl _)
            st t.position.1 t.position.2 hInv
          have hlb2 : ∀ u ∈ rest, posLe (endPos t) u.position := fun u hu => hhead u hu
          have hst2 : ∀ acc sp,
              (slLine st t.position.1 t.position.2 v).2 = some (acc, sp) →
              posLe sp (endPos t) := by
            intro acc sp hsp
            rw [hend]
            exact (ss acc sp hsp).2
          obtain ⟨ihp, ihb⟩ := ih _ (endPos t) out2 htail hlb2 hst2 hrec
          have hlow : posLe (stLB st b)
              (stLB (slLine st t.position.1 t.position.2 v).2 (endPos t)) := by
            cases st with
            | none =>
              cases hr2 : (slLine none t.position.1 t.position.2 v).2 with
              | none =>
                simp only [stLB_none]
                exact posLe_trans hbt (posLe_endPos t)
              | some pair2 =>
                obtain ⟨acc2, sp2⟩ := pair2
                have := (ss acc2 sp2 hr2).1
                simp only [stLB_none, stLB_some] at this ⊢
                refine posLe_trans hbt ?_
                simpa using this
            | some pair1 =>
              obtain ⟨acc1, sp1'⟩ := pair1
              cases hr2 : (slLine (some (acc1, sp1')) t.position.1 t.position.2 v).2 with
              | none =>
                simp only [stLB_none, stLB_some]
                exact posLe_trans (hst acc1 sp1' rfl) (posLe_trans hbt (posLe_endPos t))
              | some pair2 =>
                obtain ⟨acc2, sp2⟩ := pair2
                have := (ss acc2 sp2 hr2).1
                simp only [stLB_some] at this ⊢
                exact this
          refine ⟨?_, ?_⟩
          · refine List.pairwise_append.mpr ⟨sp1, ihp, ?_⟩
            intro a ha bb hbb
            obtain ⟨-, hb2⟩ := sb a ha
            have hub := ihb bb hbb
            unfold tokLe
            refine posLe_trans ?_ hub
            rw [hend]
            exact hb2
          · intro u hu
            rcases List.mem_append.mp hu with hu1 | hu2
            · obtain ⟨hb1, -⟩ := sb u hu1
              cases st with
              | none =>
                simp only [stLB_none] at hb1 ⊢
                refine posLe_trans hbt ?_
                simpa using hb1
              | some pair1 =>
                obtain ⟨acc1, sp1'⟩ := pair1
                simp only [stLB_some] at hb1 ⊢
                exact hb1
            · exact posLe_trans hlow (ihb u hu2)
      · rw [if_neg hLine] at h
        exact absurd h (by simp)

/-- Monotonicity of `string_literal_pass` on stream-ordered input. -/
theorem string_literal_pass_mono (ts out : List Token)
    (hp : List.Pairwise tokLe ts) (h : string_literal_pass ts = .ok out) :
    List.Pairwise tokLe out :=
  (slGo_spec ts none (0, 0) out hp (fun t _ => posLe_zero _)
    (fun acc sp hx => absurd hx (by simp)) h).1

theorem pairwise_of_all {α : Type} {R : α → α → Prop} :
    ∀ (l : List α), (∀ a ∈ l, ∀ b ∈ l, R a b) → List.Pairwise R l
  | [], _ => List.Pairwise.nil
  | a :: l, h =>
    List.Pairwise.cons
      (fun b hb => h a (List.mem_cons_self _ _) b (List.mem_cons_of_mem _ hb))
      (pairwise_of_all l
        (fun x hx y hy => h x (List.mem_cons_of_mem _ hx) y (List.mem_cons_of_mem _ hy)))

theorem posLe_col_le {p : Nat × Nat} {r x y : Nat} (h : posLe p (r, x))
    (hxy : x ≤ y) : posLe p (r, y) := by
  unfold posLe at *
  omega

/-- End position of a line-kind token with a known string value. -/
theorem endPos_line_of {t : Token} {v : List Char} (hk : t.kind = "line")
    (hv : t.value = .vStr v) :
    endPos t = (t.position.1, t.position.2 + v.length) := by
  simp [endPos, hk, hv, valueLen]

theorem pyLstrip_length_le (s : List Char) : (pyLstrip s).length ≤ s.length :=
  (List.dropWhile_sublist _).length_le

theorem pyRstrip_length_le (s : List Char) : (pyRstrip s).length ≤ s.length := by
  unfold pyRstrip
  rw [List.length_reverse]
  calc (s.reverse.dropWhile isPySpace).length ≤ s.reverse.length :=
        (List.dropWhile_sublist _).length_le
    _ = s.length := List.length_reverse _

theorem splitSemi_length_le (s : List Char) : (splitSemi s).length ≤ s.length :=
  (List.takeWhile_sublist _).length_le

theorem pyStrip_length_le (s : List Char) : (pyStrip s).length ≤ s.length :=
  Nat.le_trans (pyRstrip_length_le _) (pyLstrip_length_le _)

/-- Inversion of `appendPRes` on a successful run. -/
theorem appendPRes_ok {r : PRes} {k : Unit → PRes} {out : List Token}
    (h : appendPRes r k = .ok out) :
    ∃ o₁ o₂, r = .ok o₁ ∧ k () = .ok o₂ ∧ out = o₁ ++ o₂ := by
  cases r with
  | ok o =>
    simp only [appendPRes] at h
    obtain ⟨o₂, h₂, rfl⟩ := prependToks_ok h
    exact ⟨o, o₂, rfl, h₂, rfl⟩
  | err o p => simp [appendPRes] at h
  | crash o => simp [appendPRes] at h

/-- Inversion of pass composition on a successful run. -/
theorem seqPass_ok {r : PRes} {g : List Token → PRes} {out : List Token}
    (h : seqPass r g = .ok out) : ∃ o₁, r = .ok o₁ ∧ g o₁ = .ok out := by
  cases r with
  | ok o => exact ⟨o, rfl, h⟩
  | err o p =>
    simp only [seqPass] at h
    split at h <;> exact absurd h (by simp)
  | crash o =>
    simp only [seqPass] at h
    split at h <;> exact absurd h (by simp)

/-- Every token of `breakGo` is a `line` token at the start of its row. -/
theorem breakGo_mem : ∀ (ls : List (List Char)) (row : Nat) (t : Token),
    t ∈ breakGo row ls →
    ∃ i l, ls.get? i = some l ∧ t = ⟨"line", (row + i, 0), .vStr l⟩
  | [], row, t, ht => absurd ht (by simp [breakGo])
  | l :: ls, row, t, ht => by
    simp only [breakGo] at ht
    rcases List.mem_cons.mp ht with rfl | ht'
    · exact ⟨0, l, rfl, by simp⟩
    · obtain ⟨i, l', hget, rfl⟩ := breakGo_mem ls (row + 1) t ht'
      refine ⟨i + 1, l', by simpa using hget, ?_⟩
      have : row + 1 + i = row + (i + 1) := by omega
      rw [this]

/-- Stream order for the line-splitter output followed by a terminator
that lies at or after the end of every line. -/
theorem break_pairwise : ∀ (ls : List (List Char)) (row : Nat) (e : Token),
    (∀ i l, ls.get? i = some l → posLe (row + i, l.length) e.position) →
    List.Pairwise tokLe (breakGo row ls ++ [e])
  | [], row, e, _ => by
    simp only [breakGo, List.nil_append]
    exact List.pairwise_singleton _ _
  | l :: ls, row, e, hE => by
    simp only [breakGo, List.cons_append]
    refine List.pairwise_cons.mpr ⟨?_, ?_⟩
    · intro u hu
      rcases List.mem_append.mp hu with hu1 | hu2
      · obtain ⟨i, l', _, rfl⟩ := breakGo_mem ls (row + 1) u hu1
        unfold tokLe
        rw [endPos_line]
        unfold posLe
        dsimp only
        omega
      · simp only [List.mem_singleton] at hu2
        subst hu2
        unfold tokLe
        rw [endPos_line]
        have := hE 0 l rfl
        unfold posLe at this ⊢
        dsimp only at this ⊢
        omega
    · refine break_pairwise ls (row + 1) e ?_
      intro i l' hget
      have := hE (i + 1) l' (by simpa using hget)
      have hr : row + (i + 1) = row + 1 + i := by omega
      rw [hr] at this
      exact this

/-- Monotonicity of the line splitter: a successful run is stream-ordered. -/
theorem break_line_pass_mono (s : List Char) (out : List Token)
    (h : break_line_pass s = .ok out) : List.Pairwise tokLe out := by
  unfold break_line_pass at h
  split at h
  · exact absurd h (by simp)
  · simp only [PRes.ok.injEq] at h
    subst h
    refine break_pairwise _ 0 _ ?_
    intro i l hget
    have hi : i < (pySplitlines s).length := by
      have := List.get?_eq_some.mp hget
      exact this.1
    dsimp only
    split
    · rename_i hlastc
      have hlast : (pySplitlines s).getLast? =
          (pySplitlines s).get? ((pySplitlines s).length - 1) :=
        List.getLast?_eq_get? _
      by_cases hilast : i = (pySplitlines s).length - 1
      · subst hilast
        have hld : (pySplitlines s).getLastD [] = l := by
          rw [List.getLastD_eq_getLast?, hlast, hget]
          rfl
        rw [hld]
        unfold posLe
        dsimp only
        omega
      · unfold posLe
        dsimp only
        omega
    · unfold posLe
      dsimp only
      omega

/-- Monotonicity of the comment/blank filter: kept tokens keep their
positions and can only shrink, so stream order is preserved. -/
theorem comment_pass_mono : ∀ (ts out : List Token), List.Pairwise tokLe ts →
    comment_pass ts = .ok out →
    List.Pairwise tokLe out ∧
      ∀ u ∈ out, ∃ s ∈ ts, u.position = s.position ∧ posLe (endPos u) (endPos s)
  | [], out, _, h => by
    simp only [comment_pass] at h
    injection h with h'
    subst h'
    exact ⟨List.Pairwise.nil, by intro u hu; exact absurd hu (by simp)⟩
  | t :: rest, out, hp, h => by
    obtain ⟨hhead, htail⟩ := List.pairwise_cons.mp hp
    simp only [comment_pass] at h
    by_cases hLine : t.kind = "line"
    · rw [if_pos hLine] at h
      split at h
      swap
      · exact absurd h (by simp)
      · rename_i v hval
        by_cases hdrop : pyStrip (pyRstrip (splitSemi v)) = []
        · rw [if_pos hdrop] at h
          obtain ⟨hp', hm'⟩ := comment_pass_mono rest out htail h
          refine ⟨hp', ?_⟩
          intro u hu
          obtain ⟨stok, hs, h1, h2⟩ := hm' u hu
          exact ⟨stok, List.mem_cons_of_mem _ hs, h1, h2⟩
        · rw [if_neg hdrop] at h
          obtain ⟨out', hrec, rfl⟩ := prependTok_ok h
          obtain ⟨hp', hm'⟩ := comment_pass_mono rest out' htail hrec
          have hlen : (pyRstrip (splitSemi v)).length ≤ v.length :=
            Nat.le_trans (pyRstrip_length_le _) (splitSemi_length_le _)
          have hendle : posLe
              (endPos ⟨t.kind, t.position, .vStr (pyRstrip (splitSemi v))⟩)
              (endPos t) := by
            rw [@endPos_line_of ⟨t.kind, t.position, .vStr (pyRstrip (splitSemi v))⟩
                (pyRstrip (splitSemi v)) hLine rfl, endPos_line_of hLine hval]
            dsimp only
            exact posLe_step (by omega)
          refine ⟨?_, ?_⟩
          · refine List.pairwise_cons.mpr ⟨?_, hp'⟩
            intro u hu
            obtain ⟨stok, hs, h1, -⟩ := hm' u hu
            unfold tokLe
            rw [h1]
            exact posLe_trans hendle (hhead stok hs)
          · intro u hu
            rcases List.mem_cons.mp hu with hEq | hu'
            · refine ⟨t, List.mem_cons_self _ _, ?_, ?_⟩
              · rw [hEq]
              · rw [hEq]
                exact hendle
            · obtain ⟨stok, hs, h1, h2⟩ := hm' u hu'
              exact ⟨stok, List.mem_cons_of_mem _ hs, h1, h2⟩
    · rw [if_neg hLine] at h
      obtain ⟨out', hrec, rfl⟩ := prependTok_ok h
      obtain ⟨hp', hm'⟩ := comment_pass_mono rest out' htail hrec
      refine ⟨?_, ?_⟩
      · refine List.pairwise_cons.mpr ⟨?_, hp'⟩
        intro u hu
        obtain ⟨stok, hs, h1, -⟩ := hm' u hu
        unfold tokLe
        rw [h1]
        exact hhead stok hs
      · intro u hu
        rcases List.mem_cons.mp hu with hEq | hu'
        · refine ⟨t, List.mem_cons_self _ _, ?_, ?_⟩
          · rw [hEq]
          · rw [hEq]
            exact posLe_refl _
        · obtain ⟨stok, hs, h1, h2⟩ := hm' u hu'
          exact ⟨stok, List.mem_cons_of_mem _ hs, h1, h2⟩

/-- Monotonicity of the indentation tracker on stream-ordered input. -/
theorem indentGo_mono (ts : List Token) : ∀ (lv : List Nat) (first : Bool)
    (b : Nat × Nat) (out : List Token),
    List.Pairwise tokLe ts →
    (∀ t ∈ ts, posLe b t.position) →
    indentGo lv first ts = .ok out →
    List.Pairwise tokLe out ∧ ∀ u ∈ out, posLe b u.position := by
  induction ts with
  | nil =>
    intro lv first b out _ _ h
    simp only [indentGo] at h
    injection h with h'
    subst h'
    exact ⟨List.Pairwise.nil, by intro u hu; exact absurd hu (by simp)⟩
  | cons t rest ih =>
    intro lv first b out hp hlb h
    obtain ⟨hhead, htail⟩ := List.pairwise_cons.mp hp
    have hbt : posLe b t.position := hlb t (List.mem_cons_self _ _)
    simp only [indentGo] at h
    by_cases hEof : t.kind = "eof"
    · rw [if_pos hEof] at h
      injection h with h'
      subst h'
      have hall : ∀ u ∈ ((lv.filter (fun l => l ≠ 0)).map
          (fun _ => (⟨"close_level", t.position, .vNone⟩ : Token)) ++ [t]),
          u.position = t.position ∧ endPos u = t.position := by
        intro u hu
        rcases List.mem_append.mp hu with hu1 | hu2
        · obtain ⟨a, -, rfl⟩ := List.mem_map.mp hu1
          exact ⟨rfl, endPos_of_ne _ _ _ (by decide)⟩
        · simp only [List.mem_singleton] at hu2
          subst hu2
          refine ⟨rfl, ?_⟩
          rw [endPos_of_ne u.kind u.position u.value (by rw [hEof]; decide)]
      refine ⟨?_, ?_⟩
      · refine pairwise_of_all _ ?_
        intro a ha bb hbb
        obtain ⟨-, ha2⟩ := hall a ha
        obtain ⟨hb1, -⟩ := hall bb hbb
        unfold tokLe
        rw [ha2, hb1]
        exact posLe_refl _
      · intro u hu
        obtain ⟨hu1, -⟩ := hall u hu
        rw [hu1]
        exact hbt
    · by_cases hLine : t.kind = "line"
      · rw [if_neg hEof, if_pos hLine] at h
        split at h
        swap
        · exact absurd h (by simp)
        · rename_i v hval
          have hlble : (pyLstrip v).length ≤ v.length := pyLstrip_length_le v
          have hend : endPos t = (t.position.1, t.position.2 + v.length) :=
            endPos_line_of hLine hval
          have hlb2 : ∀ u ∈ rest, posLe (endPos t) u.position :=
            fun u hu => hhead u hu
          have hlpb : posLe b
              (t.position.1, t.position.2 + (v.length - (pyLstrip v).length)) := by
            refine posLe_trans hbt ?_
            have : posLe (t.position.1, t.position.2)
                (t.position.1, t.position.2 + (v.length - (pyLstrip v).length)) :=
              posLe_step (by omega)
            simpa using this
          have hlineEnd : endPos ⟨"line",
              (t.position.1, t.position.2 + (v.length - (pyLstrip v).length)),
              .vStr (pyLstrip v)⟩ = (t.position.1, t.position.2 + v.length) := by
            rw [endPos_line]
            dsimp only
            congr 1
            omega
          split at h
          · exact absurd h (by simp)
          · split at h
            · exact absurd h (by simp)
            · rename_i top tail
              split at h
              · -- push
                obtain ⟨out₁, h₁, rfl⟩ := prependTok_ok h
                obtain ⟨out₂, h₂, rfl⟩ := prependTok_ok h₁
                obtain ⟨ihp, ihb⟩ := ih _ false (endPos t) out₂ htail hlb2 h₂
                refine ⟨?_, ?_⟩
                · refine List.pairwise_cons.mpr ⟨?_, List.pairwise_cons.mpr ⟨?_, ihp⟩⟩
                  · intro u hu
                    rcases List.mem_cons.mp hu with rfl | hu'
                    · unfold tokLe
                      rw [endPos_of_ne _ _ _ (by decide)]
                      exact posLe_refl _
                    · have := ihb u hu'
                      unfold tokLe
                      rw [endPos_of_ne _ _ _ (by decide)]
                      refine posLe_trans ?_ this
                      rw [hend]
                      exact posLe_step (by omega)
                  · intro u hu
                    have := ihb u hu
                    unfold tokLe
                    rw [hlineEnd, ← hend]
                    exact this
                · intro u hu
                  rcases List.mem_cons.mp hu with rfl | hu'
                  · exact hlpb
                  · rcases List.mem_cons.mp hu' with rfl | hu''
                    · exact hlpb
                    · exact posLe_trans (posLe_trans hbt (posLe_endPos t)) (ihb u hu'')
              · split at h
                · split at h
                  · exact absurd h (by simp)
                  · -- dedent
                    obtain ⟨out₁, h₁, rfl⟩ := prependToks_ok h
                    obtain ⟨out₂, h₂, rfl⟩ := prependTok_ok h₁
                    obtain ⟨ihp, ihb⟩ := ih _ false (endPos t) out₂ htail hlb2 h₂
                    have hcl : ∀ u ∈ (popClose (v.length - (pyLstrip v).length)
                        (t.position.1, t.position.2 + (v.length - (pyLstrip v).length))
                        (top :: tail)).1,
                        u = ⟨"close_level",
                          (t.position.1, t.position.2 + (v.length - (pyLstrip v).length)),
                          .vNone⟩ := by
                      intro u hu
                      have hmem : (v.length - (pyLstrip v).length) ∈ top :: tail := by
                        rename_i hmemn
                        exact Decidable.not_not.mp hmemn
                      obtain ⟨pre, -, hfst, -, -⟩ := popClose_spec _ _ _ hmem
                      rw [hfst] at hu
                      obtain ⟨a, -, rfl⟩ := List.mem_map.mp hu
                      rfl
                    refine ⟨?_, ?_⟩
                    · refine List.pairwise_append.mpr ⟨?_, ?_, ?_⟩
                      · refine pairwise_of_all _ ?_
                        intro a ha bb hbb
                        rw [hcl a ha, hcl bb hbb]
                        unfold tokLe
                        rw [endPos_of_ne _ _ _ (by decide)]
                        exact posLe_refl _
                      · refine List.pairwise_cons.mpr ⟨?_, ihp⟩
                        intro u hu
                        have := ihb u hu
                        unfold tokLe
                        rw [hlineEnd, ← hend]
                        exact this
                      · intro a ha bb hbb
                        rw [hcl a ha]
                        unfold tokLe
                        rw [endPos_of_ne _ _ _ (by decide)]
                        rcases List.mem_cons.mp hbb with rfl | hbb'
                        · exact posLe_refl _
                        · have := ihb bb hbb'
                          refine posLe_trans ?_ this
                          rw [hend]
                          exact posLe_step (by omega)
                    · intro u hu
                      rcases List.mem_append.mp hu with hu1 | hu2
                      · rw [hcl u hu1]
                        exact hlpb
                      · rcases List.mem_cons.mp hu2 with rfl | hu''
                        · exact hlpb
                        · exact posLe_trans (posLe_trans hbt (posLe_endPos t)) (ihb u hu'')
                · -- equal
                  obtain ⟨out₁, h₁, rfl⟩ := prependTok_ok h
                  obtain ⟨ihp, ihb⟩ := ih _ false (endPos t) out₁ htail hlb2 h₁
                  refine ⟨?_, ?_⟩
                  · refine List.pairwise_cons.mpr ⟨?_, ihp⟩
                    intro u hu
                    have := ihb u hu
                    unfold tokLe
                    rw [hlineEnd, ← hend]
                    exact this
                  · intro u hu
                    rcases List.mem_cons.mp hu with rfl | hu'
                    · exact hlpb
                    · exact posLe_trans (posLe_trans hbt (posLe_endPos t)) (ihb u hu')
      · rw [if_neg hEof, if_neg hLine] at h
        obtain ⟨out', hrec, rfl⟩ := prependTok_ok h
        obtain ⟨ihp, ihb⟩ := ih lv first (endPos t) out'
          htail (fun u hu => hhead u hu) hrec
        refine ⟨?_, ?_⟩
        · refine List.pairwise_cons.mpr ⟨?_, ihp⟩
          intro u hu
          exact ihb u hu
        · intro u hu
          rcases List.mem_cons.mp hu with rfl | hu'
          · exact hbt
          · exact posLe_trans (posLe_trans hbt (posLe_endPos t)) (ihb u hu')

/-- A successful `startswith` bounds the pattern's length. -/
theorem swList_length_le : ∀ (p l : List Char), swList p l = true → p.length ≤ l.length
  | [], _, _ => by simp
  | _ :: _, [], h => by simp [swList] at h
  | p :: ps, c :: cs, h => by
    simp only [swList, Bool.and_eq_true] at h
    have := swList_length_le ps cs h.2
    simp only [List.length_cons]
    omega

/-- An identifier match does not outrun the line. -/
theorem matchIdent_length_le {line m : List Char} (h : matchIdent line = some m) :
    m.length ≤ line.length := by
  unfold matchIdent at h
  split at h
  · exact absurd h (by simp)
  · rename_i c cs
    split at h
    · simp only [Option.some.injEq] at h
      subst h
      have := (List.takeWhile_sublist (l := cs) isWordChar).length_le
      simp only [List.length_cons]
      omega
    · exact absurd h (by simp)

/-- A decimal match does not outrun the line. -/
theorem matchDec_length_le {line m : List Char} (h : matchDec line = some m) :
    m.length ≤ line.length := by
  unfold matchDec at h
  split at h
  · exact absurd h (by simp)
  · rename_i c cs
    split at h
    · simp only [Option.some.injEq] at h
      subst h
      have := (List.takeWhile_sublist (l := cs) isDigitChar).length_le
      simp only [List.length_cons]
      omega
    · exact absurd h (by simp)

/-- A zero match does not outrun the line. -/
theorem matchZero_length_le {line m : List Char} (h : matchZero line = some m) :
    m.length ≤ line.length := by
  unfold matchZero at h
  split at h
  · exact absurd h (by simp)
  · split at h
    · simp only [Option.some.injEq] at h
      subst h
      simp
    · exact absurd h (by simp)

/-- A radix-literal match does not outrun the line. -/
theorem matchRadix_length_le {m₁ m₂ : Char} {isD : Char → Bool} {line m : List Char}
    (h : matchRadix m₁ m₂ isD line = some m) : m.length ≤ line.length := by
  unfold matchRadix at h
  split at h
  · rename_i c₀ c rest
    split at h
    · split at h
      · exact absurd h (by simp)
      · rename_i d ds htw
        simp only [Option.some.injEq] at h
        subst h
        have hsub := (List.takeWhile_sublist (l := rest) isD).length_le
        rw [htw] at hsub
        simp only [List.length_cons] at hsub ⊢
        omega
    · exact absurd h (by simp)
  · exact absurd h (by simp)

/-- An integer-literal match does not outrun the line. -/
theorem matchInt_length_le {line m : List Char} (h : matchInt line = some m) :
    m.length ≤ line.length := by
  unfold matchInt at h
  split at h
  · rename_i x heq
    injection h with h'
    subst h'
    exact matchDec_length_le heq
  · split at h
    · rename_i x heq
      injection h with h'
      subst h'
      exact matchZero_length_le heq
    · split at h
      · rename_i x heq
        injection h with h'
        subst h'
        exact matchRadix_length_le heq
      · split at h
        · rename_i x heq
          injection h with h'
          subst h'
          exact matchRadix_length_le heq
        · exact matchRadix_length_le h

/-- A successful match of the cascade never consumes past the line end. -/
theorem splitMatch_le {row col : Nat} {line : List Char} {t : Token} {n : Nat}
    (h : splitMatch row col line = some (t, n)) : n ≤ line.length := by
  unfold splitMatch at h
  split at h
  · rename_i k m heq
    simp only [Option.some.injEq, Prod.mk.injEq] at h
    obtain ⟨-, rfl⟩ := h
    unfold tryTable1 at heq
    split at heq
    · rename_i hsw
      simp only [Option.some.injEq, Prod.mk.injEq] at heq
      obtain ⟨-, rfl⟩ := heq
      exact swList_length_le _ _ hsw
    · split at heq
      · rename_i hsw
        simp only [Option.some.injEq, Prod.mk.injEq] at heq
        obtain ⟨-, rfl⟩ := heq
        exact swList_length_le _ _ hsw
      · exact absurd heq (by simp)
  · split at h
    · rename_i k m heq
      simp only [Option.some.injEq, Prod.mk.injEq] at h
      obtain ⟨-, rfl⟩ := h
      unfold tryTable2 at heq
      split at heq
      · rename_i hsw
        simp only [Option.some.injEq, Prod.mk.injEq] at heq
        obtain ⟨-, rfl⟩ := heq
        exact swList_length_le _ _ hsw
      · split at heq
        · rename_i hsw
          simp only [Option.some.injEq, Prod.mk.injEq] at heq
          obtain ⟨-, rfl⟩ := heq
          exact swList_length_le _ _ hsw
        · exact absurd heq (by simp)
    · split at h
      · rename_i k m heq
        simp only [Option.some.injEq, Prod.mk.injEq] at h
        obtain ⟨-, rfl⟩ := h
        unfold tryTable3 at heq
        split at heq
        · exact absurd heq (by simp)
        · repeat' split at heq
          all_goals first
            | (simp only [Option.some.injEq, Prod.mk.injEq] at heq
               obtain ⟨-, rfl⟩ := heq
               simp)
            | exact absurd heq (by simp)
      · split at h
        · rename_i name heq
          simp only [Option.some.injEq, Prod.mk.injEq] at h
          obtain ⟨-, rfl⟩ := h
          exact matchIdent_length_le heq
        · split at h
          · rename_i m heq
            simp only [Option.some.injEq, Prod.mk.injEq] at h
            obtain ⟨-, rfl⟩ := h
            exact matchInt_length_le heq
          · exact absurd h (by simp)

/-- Every token produced by the matching cascade starts at the current
position and is not a `line` token (so it has no extent). -/
theorem splitMatch_props {row col : Nat} {line : List Char} {t : Token} {n : Nat}
    (h : splitMatch row col line = some (t, n)) :
    t.position = (row, col) ∧ endPos t = (row, col) := by
  unfold splitMatch at h
  split at h
  · rename_i k m heq
    simp only [Option.some.injEq, Prod.mk.injEq] at h
    obtain ⟨rfl, -⟩ := h
    refine ⟨rfl, ?_⟩
    unfold tryTable1 at heq
    split at heq
    · simp only [Option.some.injEq, Prod.mk.injEq] at heq
      rw [endPos_of_ne _ _ _ (by rw [← heq.1]; decide)]
    · split at heq
      · simp only [Option.some.injEq, Prod.mk.injEq] at heq
        rw [endPos_of_ne _ _ _ (by rw [← heq.1]; decide)]
      · exact absurd heq (by simp)
  · split at h
    · rename_i k m heq
      simp only [Option.some.injEq, Prod.mk.injEq] at h
      obtain ⟨rfl, -⟩ := h
      refine ⟨rfl, ?_⟩
      unfold tryTable2 at heq
      split at heq
      · simp only [Option.some.injEq, Prod.mk.injEq] at heq
        rw [endPos_of_ne _ _ _ (by rw [← heq.1]; decide)]
      · split at heq
        · simp only [Option.some.injEq, Prod.mk.injEq] at heq
          rw [endPos_of_ne _ _ _ (by rw [← heq.1]; decide)]
        · exact absurd heq (by simp)
    · split at h
      · rename_i k m heq
        simp only [Option.some.injEq, Prod.mk.injEq] at h
        obtain ⟨rfl, -⟩ := h
        refine ⟨rfl, ?_⟩
        unfold tryTable3 at heq
        repeat' split at heq
        all_goals first
          | (simp only [Option.some.injEq, Prod.mk.injEq] at heq
             rw [endPos_of_ne _ _ _ (by rw [← heq.1]; decide)])
          | exact absurd heq (by simp)
      · split at h
        · rename_i name heq
          simp only [Option.some.injEq, Prod.mk.injEq] at h
          obtain ⟨rfl, -⟩ := h
          exact ⟨rfl, endPos_of_ne _ _ _ (by decide)⟩
        · split at h
          · rename_i m heq
            simp only [Option.some.injEq, Prod.mk.injEq] at h
            obtain ⟨rfl, -⟩ := h
            exact ⟨rfl, endPos_of_ne _ _ _ (by decide)⟩
          · exact absurd h (by simp)

/-- Monotonicity of the word-splitter loop on one line: emitted tokens are
stream-ordered, start at or after the current position, and end before the
end of the remaining text. -/
theorem splitLine_mono : ∀ (n : Nat) (line : List Char), line.length ≤ n →
    ∀ (row col : Nat) (out : List Token),
    splitLine row col line = .ok out →
    List.Pairwise tokLe out ∧
      ∀ u ∈ out, posLe (row, col) u.position ∧
        posLe (endPos u) (row, col + line.length) := by
  intro n
  induction n with
  | zero =>
    intro line hlen row col out h
    have hnil : line = [] := List.eq_nil_of_length_eq_zero (Nat.le_zero.mp hlen)
    subst hnil
    simp only [splitLine] at h
    injection h with h'
    subst h'
    exact ⟨List.Pairwise.nil, by intro u hu; exact absurd hu (by simp)⟩
  | succ n ihn =>
    intro line hlen row col out h
    cases line with
    | nil =>
      simp only [splitLine] at h
      injection h with h'
      subst h'
      exact ⟨List.Pairwise.nil, by intro u hu; exact absurd hu (by simp)⟩
    | cons c cs =>
      simp only [splitLine] at h
      split at h
      · exact absurd h (by simp)
      · rename_i tok m heq
        obtain ⟨out', hrec, rfl⟩ := prependTok_ok h
        have hpos := splitMatch_pos heq
        have ⟨hp1, hp2⟩ := splitMatch_props heq
        have hlen2 : (pyLstrip ((c :: cs).drop m)).length ≤ n := by
          have h1 : (pyLstrip ((c :: cs).drop m)).length ≤ ((c :: cs).drop m).length :=
            pyLstrip_length_le _
          have h2 : ((c :: cs).drop m).length = (c :: cs).length - m :=
            List.length_drop _ _
          have h3 : (c :: cs).length = cs.length + 1 := List.length_cons _ _
          omega
        obtain ⟨ihp, ihb⟩ := ihn (pyLstrip ((c :: cs).drop m)) hlen2 row (col + m)
          out' hrec
        have hbnd : col + m + (pyLstrip ((c :: cs).drop m)).length ≤
            col + (c :: cs).length := by
          have h1 : (pyLstrip ((c :: cs).drop m)).length ≤ ((c :: cs).drop m).length :=
            pyLstrip_length_le _
          have h2 : ((c :: cs).drop m).length = (c :: cs).length - m :=
            List.length_drop _ _
          have h4 : m ≤ (c :: cs).length := splitMatch_le heq
          omega
        refine ⟨?_, ?_⟩
        · refine List.pairwise_cons.mpr ⟨?_, ihp⟩
          intro u hu
          obtain ⟨hb1, -⟩ := ihb u hu
          unfold tokLe
          rw [hp2]
          exact posLe_trans (posLe_step (by omega)) hb1
        · intro u hu
          rcases List.mem_cons.mp hu with hEq | hu'
          · subst hEq
            rw [hp1, hp2]
            exact ⟨posLe_refl _, posLe_step (by omega)⟩
          · obtain ⟨hb1, hb2⟩ := ihb u hu'
            refine ⟨posLe_trans (posLe_step (by omega)) hb1, ?_⟩
            exact posLe_col_le hb2 hbnd

/-- Monotonicity of `split_word_pass` on stream-ordered input. -/
theorem split_word_pass_mono (ts : List Token) : ∀ (b : Nat × Nat)
    (out : List Token),
    List.Pairwise tokLe ts →
    (∀ t ∈ ts, posLe b t.position) →
    split_word_pass ts = .ok out →
    List.Pairwise tokLe out ∧ ∀ u ∈ out, posLe b u.position := by
  induction ts with
  | nil =>
    intro b out _ _ h
    simp only [split_word_pass] at h
    injection h with h'
    subst h'
    exact ⟨List.Pairwise.nil, by intro u hu; exact absurd hu (by simp)⟩
  | cons t rest ih =>
    intro b out hp hlb h
    obtain ⟨hhead, htail⟩ := List.pairwise_cons.mp hp
    have hbt : posLe b t.position := hlb t (List.mem_cons_self _ _)
    simp only [split_word_pass] at h
    by_cases hLine : t.kind = "line"
    · rw [if_pos hLine] at h
      split at h
      swap
      · exact absurd h (by simp)
      · rename_i v hval
        obtain ⟨o₁, o₂, hline, hrec, rfl⟩ := appendPRes_ok h
        obtain ⟨lp, lb⟩ := splitLine_mono (pyStrip v).length (pyStrip v) (le_refl _)
          t.position.1 t.position.2 o₁ hline
        obtain ⟨ihp, ihb⟩ := ih (endPos t) o₂ htail (fun u hu => hhead u hu) hrec
        have hend : endPos t = (t.position.1, t.position.2 + v.length) :=
          endPos_line_of hLine hval
        have hstriple : (pyStrip v).length ≤ v.length := pyStrip_length_le v
        have hcross : ∀ a ∈ o₁, posLe (endPos a) (endPos t) := by
          intro a ha
          obtain ⟨-, hb2⟩ := lb a ha
          rw [hend]
          exact posLe_col_le hb2 (by omega)
        refine ⟨?_, ?_⟩
        · refine List.pairwise_append.mpr ⟨lp, ihp, ?_⟩
          intro a ha bb hbb
          unfold tokLe
          exact posLe_trans (hcross a ha) (ihb bb hbb)
        · intro u hu
          rcases List.mem_append.mp hu with hu1 | hu2
          · obtain ⟨hb1, -⟩ := lb u hu1
            refine posLe_trans hbt ?_
            simpa using hb1
          · exact posLe_trans (posLe_trans hbt (posLe_endPos t)) (ihb u hu2)
    · rw [if_neg hLine] at h
      obtain ⟨out', hrec, rfl⟩ := prependTok_ok h
      obtain ⟨ihp, ihb⟩ := ih (endPos t) out' htail (fun u hu => hhead u hu) hrec
      refine ⟨?_, ?_⟩
      · exact List.pairwise_cons.mpr ⟨fun u hu => ihb u hu, ihp⟩
      · intro u hu
        rcases List.mem_cons.mp hu with hEq | hu'
        · rw [hEq]
          exact hbt
        · exact posLe_trans (posLe_trans hbt (posLe_endPos t)) (ihb u hu')

/-- Claim C8 (counterexample): the spec says positions in the full
pipeline's output are strictly increasing.  On the source `a`, newline,
space, `b`, the output contains `open_level` and the following word at the
same position `(1, 1)` (and `close_level` and `eof` both at `(1, 2)`), so
the order is not strict. -/
theorem claim_C8_counterexample :
    lexical_parse "a\n b".toList =
      .ok [⟨"name", (0, 0), .vStr "a".toList⟩, ⟨"open_level", (1, 1), .vNone⟩,
           ⟨"name", (1, 1), .vStr "b".toList⟩, ⟨"close_level", (1, 2), .vNone⟩,
           ⟨"eof", (1, 2), .vNone⟩] ∧
    ¬ List.Pairwise (fun a b => posLt a.position b.position)
      [(⟨"name", (0, 0), .vStr "a".toList⟩ : Token), ⟨"open_level", (1, 1), .vNone⟩,
       ⟨"name", (1, 1), .vStr "b".toList⟩, ⟨"close_level", (1, 2), .vNone⟩,
       ⟨"eof", (1, 2), .vNone⟩] := by
  constructor
  · simp +decide [lexical_parse, seqPass, break_line_pass, pySplitlines, splitlinesGo,
      breakGo, string_literal_pass, slGo, slLine, findQuote, searchClose,
      comment_pass, splitSemi, pyStrip, pyLstrip, pyRstrip, isPySpace,
      indent_level_pass, indentGo, popClose,
      split_word_pass, splitLine, splitMatch, tryTable1, tryTable2, tryTable3,
      matchIdent, matchInt, matchDec, matchZero, matchRadix, swList,
      isIdentStart, isWordChar, isDigitChar, isOctChar, isHexChar, isBinChar,
      pyIntBase0, foldDigits, digitVal, prependTok, prependToks, appendPRes]
  · decide

/-- Claim C8 (amended): for every source text that lexes without error,
the positions of the tokens produced by the full pipeline are
non-decreasing in source order (lexicographically on (row, column));
adjacent tokens may share a position, e.g. `open_level` and the line
content following it, or the final `close_level` tokens and `eof`. -/
theorem claim_C8_amended (s : List Char) (out : List Token)
    (h : lexical_parse s = .ok out) :
    List.Pairwise (fun a b => posLe a.position b.position) out := by
  unfold lexical_parse at h
  obtain ⟨o₄, h₄, hsplit⟩ := seqPass_ok h
  obtain ⟨o₃, h₃, hindent⟩ := seqPass_ok h₄
  obtain ⟨o₂, h₂, hcomment⟩ := seqPass_ok h₃
  obtain ⟨o₁, h₁, hstring⟩ := seqPass_ok h₂
  have p₁ := break_line_pass_mono s o₁ h₁
  have p₂ := string_literal_pass_mono o₁ o₂ p₁ hstring
  have p₃ := (comment_pass_mono o₂ o₃ p₂ hcomment).1
  have p₄ := (indentGo_mono o₃ [0] true (0, 0) o₄ p₃
    (fun t _ => posLe_zero _) hindent).1
  have p₅ := (split_word_pass_mono o₄ (0, 0) out p₄
    (fun t _ => posLe_zero _) hsplit).1
  exact p₅.imp (fun hx => tokLe_posLe hx)

/-- Claim C8 (witness for the amended claim). -/
theorem claim_C8_witness :
    List.Pairwise (fun a b => posLe a.position b.position)
      [(⟨"name", (0, 0), .vStr "hi".toList⟩ : Token), ⟨"eof", (0, 2), .vNone⟩] :=
  claim_C8_amended "hi".toList
    [⟨"name", (0, 0), .vStr "hi".toList⟩, ⟨"eof", (0, 2), .vNone⟩]
    (by simp +decide [lexical_parse, seqPass, break_line_pass, pySplitlines,
      splitlinesGo, breakGo, string_literal_pass, slGo, slLine, findQuote,
      searchClose, comment_pass, splitSemi, pyStrip, pyLstrip, pyRstrip, isPySpace,
      indent_level_pass, indentGo, popClose,
      split_word_pass, splitLine, splitMatch, tryTable1, tryTable2, tryTable3,
      matchIdent, matchInt, matchDec, matchZero, matchRadix, swList,
      isIdentStart, isWordChar, isDigitChar, isOctChar, isHexChar, isBinChar,
      pyIntBase0, foldDigits, digitVal, prependTok, prependToks, appendPRes])

end Koi
